import Mathlib

/-!
Verification development for the cloudreplica pricing/matching engine.

The JavaScript sources are shallowly embedded below:
* `docs/ui/matchers.js`  — OS normalization, family matching, spec inference,
  and the three best-fit finders (`findBestAws`, `findBestAzure`, `findBestGcp`,
  the latter from `docs/script.js`).
* `scripts/lib/common.js` — `dedupeCheapestByKey`, `warnAndSkipWriteOnEmpty`.
* `scripts/lib/azure.js`  — `categorizeByInstanceName`.
* `scripts/lib/gcp.js`    — `classifyGcpInstance`.
* `docs/ui/utils.js`      — `nearestCeil`, `sizeToAzureSku`,
  `getAzureStorageSkuAndMonthlyFromCfg`.

JavaScript numbers are modelled as exact rationals (`ℚ`); record fields that
can hold `null`, `undefined` or `NaN` are modelled by `JVal`.  The coercion
rules that matter (`ToNumber(null) = 0`, global `isFinite` coercing its
argument, `??` only replacing `null`/`undefined`, `NaN` comparisons being
false) are embedded explicitly.  Strings are ASCII in all repository data, so
`toLowerCase`/`toUpperCase` are modelled by ASCII case mapping.
-/

set_option maxRecDepth 4000

/-- A JavaScript value stored in a numeric record field: a finite number,
`NaN`, `null`, or `undefined` (the repository's pipelines never store
`±Infinity` in these fields). -/
inductive JVal where
  | num (q : ℚ)
  | nan
  | null
  | undef
  deriving DecidableEq, Repr

/-- An extended number as produced by JavaScript numeric coercions and by the
`?? Infinity` defaulting in the finders: a finite number, `+Infinity`, or
`NaN`. -/
inductive XNum where
  | fin (q : ℚ)
  | posInf
  | nan
  deriving DecidableEq, Repr

/-- JavaScript `ToNumber` on a `JVal`: `null` coerces to `0`, `undefined` to
`NaN`. -/
def toNumber : JVal → XNum
  | .num q => .fin q
  | .null => .fin 0
  | .nan => .nan
  | .undef => .nan

/-- Global JavaScript `isFinite` (which coerces first, so `isFinite(null)` is
`true`). -/
def jIsFinite (v : JVal) : Bool :=
  match toNumber v with
  | .fin _ => true
  | _ => false

/-- The rational a `JVal` coerces to where the source performs arithmetic on
it; fields that coerce to `NaN` are guarded by `isFinite` checks in the
source before any arithmetic, so the `0` returned for them here is never
observable through the embedded functions. -/
def toNumQ (v : JVal) : ℚ :=
  match toNumber v with
  | .fin q => q
  | _ => 0

/-- JavaScript `<` on coerced numbers; any comparison involving `NaN` is
false, and `Infinity < x` is false. -/
def xLt : XNum → XNum → Bool
  | .fin a, .fin b => decide (a < b)
  | .fin _, .posInf => true
  | _, _ => false

/-- JavaScript `===` on coerced numbers; `NaN === NaN` is false. -/
def xEq : XNum → XNum → Bool
  | .fin a, .fin b => decide (a = b)
  | .posInf, .posInf => true
  | _, _ => false

/-- The `??` operator: replace `null`/`undefined` by the alternative. -/
def jvalOrElse (v alt : JVal) : JVal :=
  match v with
  | .null => alt
  | .undef => alt
  | _ => v

/-- The pattern `v ?? Infinity` followed by use as a number. -/
def questInf (v : JVal) : XNum :=
  match v with
  | .null => .posInf
  | .undef => .posInf
  | .num q => .fin q
  | .nan => .nan

/-- Mathematical absolute value on rationals, written executably
(`Math.abs`). -/
def absQ (q : ℚ) : ℚ := if q < 0 then -q else q

/-- An optional rational (from the spec-inference helpers) as the `JVal` the
source stores: a number, or JavaScript `null`. -/
def optToJVal : Option ℚ → JVal
  | some q => .num q
  | none => .null

-- ASCII string helpers modelling the JavaScript string operations used by the
-- sources.

/-- ASCII lowercasing of one character (`String.prototype.toLowerCase`; the
repository's data is ASCII). -/
def lowerChar (c : Char) : Char :=
  if 'A' ≤ c && c ≤ 'Z' then Char.ofNat (c.toNat + 32) else c

/-- ASCII uppercasing of one character (`String.prototype.toUpperCase`). -/
def upperChar (c : Char) : Char :=
  if 'a' ≤ c && c ≤ 'z' then Char.ofNat (c.toNat - 32) else c

/-- ASCII `toLowerCase`. -/
def lowerStr (s : String) : String := ⟨s.data.map lowerChar⟩

/-- ASCII `toUpperCase`. -/
def upperStr (s : String) : String := ⟨s.data.map upperChar⟩

/-- `String.prototype.startsWith`. -/
def strStartsWith (s pre : String) : Bool := pre.data.isPrefixOf s.data

/-- Substring search over character lists (`String.prototype.includes`). -/
def hasSub (needle : List Char) : List Char → Bool
  | [] => needle.isEmpty
  | c :: rest => needle.isPrefixOf (c :: rest) || hasSub needle rest

/-- `hay.includes(needle)`. -/
def strIncludes (hay needle : String) : Bool := hasSub needle.data hay.data

/-- `Array.prototype.join(" ")` on a list of strings. -/
def joinSpace : List String → String
  | [] => ""
  | x :: xs => xs.foldl (fun a b => a ++ " " ++ b) x

/-- Decimal digit run to a natural number (`Number` applied to a `\d+`
match). -/
def digitsToNat : List Char → Nat → Nat
  | [], acc => acc
  | c :: rest, acc => digitsToNat rest (acc * 10 + (c.toNat - 48))

/-- Lowercase ASCII letter test (the `[a-z]` character class). -/
def isLowerAZ (c : Char) : Bool := 'a' ≤ c && c ≤ 'z'

/-- The `[A-Z0-9]` character class. -/
def isUpperAlnum (c : Char) : Bool := ('A' ≤ c && c ≤ 'Z') || ('0' ≤ c && c ≤ '9')

-- The normalized instance record (the flat schema consumed by the matchers).
-- The JavaScript field `instance` is spelled `inst` because `instance` is a
-- Lean keyword; `category` and the eligibility-related string fields use `""`
-- for an absent property (the source reads them through `String(x || "")` /
-- `.filter(Boolean)`).

/-- One normalized price record as consumed by the finders in
`docs/ui/matchers.js` and produced by the fetch scripts. -/
structure InstanceRecord where
  inst : String
  vcpu : JVal
  ram : JVal
  pricePerHourUSD : JVal
  region : String
  os : String
  category : String
  billingModel : String
  tenancyType : String
  productName : String
  skuName : String
  meterName : String
  deriving DecidableEq, Repr

/-- Record constructor used by concrete test inputs: region is fixed and the
billing/tenancy/product-name fields are absent. -/
def mkRow (inst : String) (vcpu ram price : JVal) (os category : String) :
    InstanceRecord :=
  ⟨inst, vcpu, ram, price, "r1", os, category, "", "", "", "", ""⟩

-- docs/ui/matchers.js

/-- `normalizeOs` from `docs/ui/matchers.js`: lowercase the value; anything
starting with `"win"` is `"windows"`, everything else (including `"Unknown"`
and the empty string) is `"linux"`. -/
def normalizeOs (s : String) : String :=
  if strStartsWith (lowerStr s) "win" then "windows" else "linux"

/-- `normalizeOs` applied to a nullish value: `String(val || '')` turns
`null`/`undefined` into the empty string before the `"win"` test. -/
def normalizeOsVal (v : Option String) : String := normalizeOs (v.getD "")

/-- `isOnDemandShared` from `docs/ui/matchers.js`. -/
def isOnDemandShared (x : InstanceRecord) : Bool :=
  let bm := lowerStr x.billingModel
  let ten := lowerStr x.tenancyType
  let okBilling := bm == "" || bm == "ondemand"
  let okTenancy := ten == "" || ten == "shared"
  let blob := lowerStr (joinSpace (([x.productName, x.skuName, x.meterName,
    x.inst]).filter (fun s => s ≠ "")))
  let looksSpot := strIncludes blob "low priority" || strIncludes blob "spot"
    || strIncludes blob "savings plan" || strIncludes blob "reserved"
  okBilling && okTenancy && !looksSpot

/-- `isAwsInFamily` from `docs/ui/matchers.js` (first-letter rules). -/
def isAwsInFamily (inst family : String) : Bool :=
  if family == "" then true
  else
    let s := lowerStr inst
    if family == "general" then strStartsWith s "m" || strStartsWith s "t"
    else if family == "compute" then strStartsWith s "c"
    else if family == "memory" then
      strStartsWith s "r" || strStartsWith s "x" || strStartsWith s "z"
    else true

/-- Scan for the regular expression `standard_([a-z]+)` and return the first
captured letter: the leftmost position where `standard_` is followed by at
least one lowercase letter. -/
def azFamScan : List Char → Option Char
  | [] => none
  | c :: rest =>
    if "standard_".data.isPrefixOf (c :: rest) then
      match (c :: rest).drop 9 with
      | d :: _ => if isLowerAZ d then some d else azFamScan rest
      | [] => azFamScan rest
    else azFamScan rest

/-- `isAzureInFamily` from `docs/ui/matchers.js`: classify by the letter
captured from `standard_([a-z]+)`, falling back to the first character of the
name. -/
def isAzureInFamily (inst family : String) : Bool :=
  if family == "" then true
  else
    let n := lowerStr inst
    let first : Option Char :=
      match azFamScan n.data with
      | some d => some d
      | none => n.data.head?
    match first with
    | none => true
    | some f =>
      if family == "general" then f == 'd' || f == 'b'
      else if family == "compute" then f == 'f'
      else if family == "memory" then f == 'e' || f == 'm'
      else true

/-- `azureFamilyMatch` from `docs/ui/matchers.js`: prefer the record's
`category`, fall back to the name-pattern rule. -/
def azureFamilyMatch (row : InstanceRecord) (family : String) : Bool :=
  if family == "" then true
  else
    let fam := lowerStr family
    let cat := lowerStr row.category
    if cat ≠ "" then
      if fam == "general" then cat == "general"
      else if fam == "compute" then cat == "compute"
      else if fam == "memory" then cat == "memory"
      else true
    else isAzureInFamily row.inst family

/-- `distance` from `docs/ui/matchers.js`: `1000` when either side is not
finite (after coercion), otherwise the absolute difference of the coerced
numbers. -/
def distance (a b : JVal) : ℚ :=
  if jIsFinite a && jIsFinite b then absQ (toNumQ a - toNumQ b) else 1000

/-- Scan for `standard_[a-z]+(\d+)[a-z]*`: leftmost occurrence of
`standard_`, at least one letter, then the captured digit run. -/
def azCore1 : List Char → Option Nat
  | [] => none
  | c :: rest =>
    if "standard_".data.isPrefixOf (c :: rest) then
      let after := (c :: rest).drop 9
      let letters := after.takeWhile isLowerAZ
      if letters.isEmpty then azCore1 rest
      else
        let ds := (after.drop letters.length).takeWhile Char.isDigit
        if ds.isEmpty then azCore1 rest else some (digitsToNat ds 0)
    else azCore1 rest

/-- Scan for `[a-z]+(\d+)-` (for example `f16-4ams_v7` captures `16`). -/
def azCore2 : List Char → Option Nat
  | [] => none
  | c :: rest =>
    let letters := (c :: rest).takeWhile isLowerAZ
    if letters.isEmpty then azCore2 rest
    else
      let ds := ((c :: rest).drop letters.length).takeWhile Char.isDigit
      if ds.isEmpty then azCore2 rest
      else
        match (c :: rest).drop (letters.length + ds.length) with
        | '-' :: _ => some (digitsToNat ds 0)
        | _ => azCore2 rest

/-- `inferAzureCoresRamFromName` from `docs/ui/matchers.js`: best-effort core
count from the name plus a per-family RAM ratio; `(null, null)` when parsing
fails. -/
def inferAzureCoresRamFromName (name : String) : Option ℚ × Option ℚ :=
  if name == "" then (none, none)
  else
    let n := lowerStr name
    let coreMatch : Option Nat :=
      match azCore1 n.data with
      | some k => some k
      | none => azCore2 n.data
    let vcpu : Option ℚ := coreMatch.map (fun k => (k : ℚ))
    let ratio : Option ℚ :=
      if strStartsWith n "standard_d" then some 4
      else if strStartsWith n "standard_f" then some 2
      else if strStartsWith n "standard_e" then some 8
      else if strStartsWith n "standard_b" then some 4
      else if strStartsWith n "standard_m" then some 16
      else none
    let ram : Option ℚ :=
      match vcpu, ratio with
      | some v, some r => if v ≠ 0 then some (v * r) else none
      | _, _ => none
    (vcpu, ram)

/-- `isGcpInFamily` from `docs/ui/matchers.js` (prefix allow-lists on the
uppercased name). -/
def isGcpInFamily (inst family : String) : Bool :=
  if family == "" then true
  else if inst == "" then true
  else
    let name := upperStr inst
    if family == "memory" then
      strStartsWith name "M1" || strStartsWith name "M2" ||
      strStartsWith name "M3" || strStartsWith name "M4"
    else if family == "compute" then
      strStartsWith name "C2" || strStartsWith name "C2D" ||
      strStartsWith name "H3" || strStartsWith name "H4D"
    else if family == "general" then
      strStartsWith name "C3" || strStartsWith name "C3D" ||
      strStartsWith name "C4" || strStartsWith name "C4A" ||
      strStartsWith name "C4D" || strStartsWith name "E2" ||
      strStartsWith name "N1" || strStartsWith name "N2" ||
      strStartsWith name "N2D" || strStartsWith name "N4" ||
      strStartsWith name "N4A" || strStartsWith name "N4D" ||
      strStartsWith name "T2A" || strStartsWith name "T2D"
    else true

/-- `gcpFamilyMatch` from `docs/ui/matchers.js`: prefer the record's
`category`, fall back to the prefix rule. -/
def gcpFamilyMatch (row : InstanceRecord) (family : String) : Bool :=
  if family == "" then true
  else
    let fam := lowerStr family
    let cat := lowerStr row.category
    if cat ≠ "" then
      if fam == "general" then cat == "general"
      else if fam == "compute" then cat == "compute"
      else if fam == "memory" then cat == "memory"
      else true
    else isGcpInFamily row.inst family

-- The selection loop shared (textually) by the three finders:
-- `if (score < bestScore || (score === bestScore && tieBreaker < (best?.pricePerHourUSD ?? Infinity)))`.
-- `tbL` is the coercion applied to the candidate's tie-breaker and `tbR` the
-- one applied to the incumbent's price (`findBestAws`/`findBestGcp` compare
-- the raw price on the left but default the incumbent side with
-- `?? Infinity`; `findBestAzure` defaults both sides).

/-- One iteration of the finders' selection loop. -/
def scanStep {α : Type} (sc : α → ℚ) (tbL tbR : α → XNum)
    (acc : Option α × XNum) (x : α) : Option α × XNum :=
  let bestPrice : XNum :=
    match acc.1 with
    | none => .posInf
    | some b => tbR b
  if xLt (.fin (sc x)) acc.2 || (xEq (.fin (sc x)) acc.2 && xLt (tbL x) bestPrice)
  then (some x, .fin (sc x)) else acc

/-- The finders' selection loop (`best` starts `null`, `bestScore` starts
`Infinity`). -/
def scanBest {α : Type} (sc : α → ℚ) (tbL tbR : α → XNum) (l : List α) :
    Option α :=
  (l.foldl (scanStep sc tbL tbR) (none, .posInf)).1

/-- The filter predicate of `findBestAws`. -/
def awsFilterPred (wantOS family : String) (x : InstanceRecord) : Bool :=
  isOnDemandShared x && jIsFinite x.vcpu && jIsFinite x.ram &&
  jIsFinite x.pricePerHourUSD &&
  (wantOS == "" || normalizeOs x.os == wantOS) &&
  isAwsInFamily x.inst family

/-- The score computed in `findBestAws`'s loop. -/
def awsScore (vcpu ram : ℚ) (x : InstanceRecord) : ℚ :=
  distance x.vcpu (.num vcpu) + distance x.ram (.num ram)

/-- `findBestAws` from `docs/ui/matchers.js`.  Thrown errors become
`Except.error` carrying the thrown message; the JavaScript function can in
principle return `null` after a nonempty filter, hence the `Option` in the
result. -/
def findBestAws (list : List InstanceRecord) (vcpu ram : ℚ)
    (os family : String) : Except String (Option InstanceRecord) :=
  if list.isEmpty then .error "AWS price list is empty"
  else
    let wantOS := lowerStr os
    let filtered := list.filter (awsFilterPred wantOS family)
    if filtered.isEmpty then
      .error ("No AWS entries for OS=" ++ (if os == "" then "any" else os) ++
        (if family == "" then "" else " family=" ++ family))
    else
      .ok (scanBest (awsScore vcpu ram)
        (fun x => toNumber x.pricePerHourUSD)
        (fun x => questInf x.pricePerHourUSD) filtered)

/-- The filter predicate of `findBestGcp` (from `docs/script.js`); note it
has no `isOnDemandShared` conjunct. -/
def gcpFilterPred (wantOs family : String) (x : InstanceRecord) : Bool :=
  jIsFinite x.vcpu && jIsFinite x.ram && jIsFinite x.pricePerHourUSD &&
  (wantOs == "" || lowerStr x.os == wantOs) &&
  gcpFamilyMatch x family

/-- The score computed in `findBestGcp`'s loop:
`Math.abs(x.vcpu - vcpu) + Math.abs(x.ram - ram)` (no `distance` guard; the
filter already confined both fields to values that coerce to finite
numbers). -/
def gcpScore (vcpu ram : ℚ) (x : InstanceRecord) : ℚ :=
  absQ (toNumQ x.vcpu - vcpu) + absQ (toNumQ x.ram - ram)

/-- `findBestGcp` from `docs/script.js`. -/
def findBestGcp (list : List InstanceRecord) (vcpu ram : ℚ)
    (os family : String) : Except String (Option InstanceRecord) :=
  if list.isEmpty then .error "GCP price list is empty"
  else
    let wantOs := lowerStr os
    let filtered := list.filter (gcpFilterPred wantOs family)
    if filtered.isEmpty then
      .error ("No GCP entries for OS=" ++ (if os == "" then "any" else os) ++
        (if family == "" then "" else " family=" ++ family))
    else
      .ok (scanBest (gcpScore vcpu ram)
        (fun x => toNumber x.pricePerHourUSD)
        (fun x => questInf x.pricePerHourUSD) filtered)

-- findBestAzure from docs/ui/matchers.js.  The pipeline tracks each
-- candidate's position in the input list so that the final in-place
-- assignment `best.os = os` (which mutates the record stored in the input
-- list whenever the enrichment map returned the record itself, i.e. when its
-- vcpu and ram were already finite) can be modelled by
-- `findBestAzureFinalList` below.

/-- Stage-1 (strict) filter of `findBestAzure`: eligibility, family, and OS
(accepting `"Unknown"`). -/
def azureP1 (wantOS family : String) (x : InstanceRecord) : Bool :=
  isOnDemandShared x && azureFamilyMatch x family &&
  (normalizeOs x.os == wantOS || x.os == "Unknown")

/-- Stage-2 filter of `findBestAzure`: family constraint dropped. -/
def azureP2 (wantOS : String) (x : InstanceRecord) : Bool :=
  isOnDemandShared x && (normalizeOs x.os == wantOS || x.os == "Unknown")

/-- Stage-3 filter of `findBestAzure`: OS ignored. -/
def azureP3 (family : String) (x : InstanceRecord) : Bool :=
  isOnDemandShared x && azureFamilyMatch x family

/-- `List.filter` that also records each kept element's index in the
original list (starting at `n`). -/
def filterIdx (p : InstanceRecord → Bool) :
    Nat → List InstanceRecord → List (Nat × InstanceRecord)
  | _, [] => []
  | i, x :: xs =>
    if p x then (i, x) :: filterIdx p (i + 1) xs else filterIdx p (i + 1) xs

/-- The progressive relaxation of `findBestAzure`: the strict filter, then —
only when it is empty and a family was requested — the family-relaxed
filter, then — only when still empty — the OS-ignoring filter. -/
def azurePreIdx (list : List InstanceRecord) (wantOS family : String) :
    List (Nat × InstanceRecord) :=
  let pre1 := filterIdx (azureP1 wantOS family) 0 list
  let pre2 :=
    if pre1.isEmpty && family ≠ "" then filterIdx (azureP2 wantOS) 0 list
    else pre1
  if pre2.isEmpty then filterIdx (azureP3 family) 0 list else pre2

/-- The enrichment map of `findBestAzure`: records whose `vcpu` and `ram`
both pass the (coercing) `isFinite` test are passed through unchanged;
otherwise a copy is made with `??`-defaulting from
`inferAzureCoresRamFromName`. -/
def enrichAzure (x : InstanceRecord) : InstanceRecord :=
  if jIsFinite x.vcpu && jIsFinite x.ram then x
  else
    let meta := inferAzureCoresRamFromName x.inst
    { x with vcpu := jvalOrElse x.vcpu (optToJVal meta.1),
             ram := jvalOrElse x.ram (optToJVal meta.2) }

/-- The score computed in `findBestAzure`'s loop: the `distance` sum when
both specs test finite, else the `9999` penalty; plus `0.5` when the
record's `os` is `"Unknown"`. -/
def azScore (vcpu ram : ℚ) (x : InstanceRecord) : ℚ :=
  let base :=
    if jIsFinite x.vcpu && jIsFinite x.ram then
      distance x.vcpu (.num vcpu) + distance x.ram (.num ram)
    else 9999
  if x.os == "Unknown" then base + mkRat 1 2 else base

/-- The tie-breaker of `findBestAzure`'s loop: `x.pricePerHourUSD ?? Infinity`. -/
def azTb (x : InstanceRecord) : XNum := questInf x.pricePerHourUSD

/-- The enriched candidate entries of `findBestAzure`, each carrying its
index in the input list and whether the enrichment map returned the stored
record itself (`true`) or a fresh copy (`false`). -/
def azureEntries (list : List InstanceRecord) (wantOS family : String) :
    List (Nat × Bool × InstanceRecord) :=
  (azurePreIdx list wantOS family).map
    (fun p => (p.1, jIsFinite p.2.vcpu && jIsFinite p.2.ram, enrichAzure p.2))

/-- The selection loop of `findBestAzure` over the enriched entries. -/
def azureScan (list : List InstanceRecord) (vcpu ram : ℚ)
    (wantOS family : String) : Option (Nat × Bool × InstanceRecord) :=
  scanBest (fun e => azScore vcpu ram e.2.2) (fun e => azTb e.2.2)
    (fun e => azTb e.2.2) (azureEntries list wantOS family)

/-- The value returned by `findBestAzure` from `docs/ui/matchers.js`: the
selected record with its `os` field overwritten by the requested `os`
(`if (best) best.os = os; return best`). -/
def findBestAzure (list : List InstanceRecord) (vcpu ram : ℚ)
    (os family : String) : Except String (Option InstanceRecord) :=
  if list.isEmpty then .error "Azure price list is empty"
  else
    let wantOS := lowerStr os
    if (azurePreIdx list wantOS family).isEmpty then
      .error ("No Azure entries for OS=" ++ (if os == "" then "any" else os) ++
        (if family == "" then "" else " family=" ++ family))
    else
      match azureScan list vcpu ram wantOS family with
      | some e => .ok (some { e.2.2 with os := os })
      | none => .ok none

/-- The state of the input list after a call to `findBestAzure`: the
assignment `best.os = os` writes through to the record stored in the input
list exactly when the selected candidate was passed through the enrichment
map unchanged (finite `vcpu` and `ram`); otherwise only a fresh copy was
modified and the input is untouched (as it also is on the thrown-error
paths). -/
def findBestAzureFinalList (list : List InstanceRecord) (vcpu ram : ℚ)
    (os family : String) : List InstanceRecord :=
  if list.isEmpty then list
  else
    let wantOS := lowerStr os
    if (azurePreIdx list wantOS family).isEmpty then list
    else
      match azureScan list vcpu ram wantOS family with
      | some (i, true, b) => list.set i { b with os := os }
      | _ => list

-- scripts/lib/common.js

/-- `Map.prototype.get`/`has` over the insertion-ordered association list
that models a JavaScript `Map`. -/
def lookupKey (m : List (String × InstanceRecord)) (k : String) :
    Option InstanceRecord :=
  (m.find? (fun e => e.1 == k)).map (fun e => e.2)

/-- `Map.prototype.set`: replace in place when the key exists, else append. -/
def setKey (m : List (String × InstanceRecord)) (k : String)
    (r : InstanceRecord) : List (String × InstanceRecord) :=
  match m with
  | [] => [(k, r)]
  | (k', r') :: rest =>
    if k' == k then (k', r) :: rest else (k', r') :: setKey rest k r

/-- The loop body of `dedupeCheapestByKey`:
`if (!map.has(k) || row.pricePerHourUSD < map.get(k).pricePerHourUSD) map.set(k, row)`. -/
def dedupeStep (keyFn : InstanceRecord → String)
    (m : List (String × InstanceRecord)) (row : InstanceRecord) :
    List (String × InstanceRecord) :=
  let k := keyFn row
  match lookupKey m k with
  | none => setKey m k row
  | some cur =>
    if xLt (toNumber row.pricePerHourUSD) (toNumber cur.pricePerHourUSD) then
      setKey m k row
    else m

/-- `dedupeCheapestByKey` from `scripts/lib/common.js`. -/
def dedupeCheapestByKey (list : List InstanceRecord)
    (keyFn : InstanceRecord → String) : List InstanceRecord :=
  (list.foldl (dedupeStep keyFn) []).map (fun e => e.2)

/-- `warnAndSkipWriteOnEmpty` from `scripts/lib/common.js`; `none` models a
non-array argument, and the provider name only feeds the warning text. -/
def warnAndSkipWriteOnEmpty (provider : String)
    (list : Option (List InstanceRecord)) : Bool :=
  match provider, list with
  | _, none => true
  | _, some l => l.isEmpty

/-- The guarded write at the end of `scripts/providers/azure.fetch.js`
(`if (warnAndSkipWriteOnEmpty("Azure", cheapest)) return; ... atomicWrite(OUT, out)`):
given the previously published file content and the freshly built output,
produce the resulting file content and whether the failover warning was
emitted. -/
def azureFetchWriteStep {α : Type} (prevFile : Option α)
    (cheapest : Option (List InstanceRecord)) (out : α) : Option α × Bool :=
  if warnAndSkipWriteOnEmpty "Azure" cheapest then (prevFile, true)
  else (some out, false)

-- scripts/lib/azure.js

/-- The family decision of `categorizeByInstanceName` on the leading
character (`undefined` when the stripped name is empty): `d`/`e`/`f` map to a
family, everything else to `"other"`. -/
def azureLeadCat (lead : Option Char) : String :=
  match lead with
  | none => "other"
  | some l =>
    if l == 'd' then "general"
    else if l == 'e' then "memory"
    else if l == 'f' then "compute"
    else "other"

/-- `categorizeByInstanceName` from `scripts/lib/azure.js`: strip a
`standard_` head, then classify the leading letter. -/
def categorizeByInstanceName (instName : String) : String :=
  let n := lowerStr instName
  let body : String := if strStartsWith n "standard_" then ⟨n.data.drop 9⟩ else n
  azureLeadCat body.data.head?

-- scripts/lib/gcp.js

/-- Split a character list on `'_'` (the shape test of the anchored pattern
`^([A-Z0-9]+)_(STANDARD|HIGHCPU|HIGHMEM|ULTRAMEM|MEGAMEM)_(\d+)$`). -/
def splitUnd : List Char → List (List Char)
  | [] => [[]]
  | c :: rest =>
    match splitUnd rest with
    | s :: ss => if c == '_' then [] :: s :: ss else (c :: s) :: ss
    | [] => if c == '_' then [[], []] else [[c]]

/-- The `CLASS_TO_CATEGORY` table of `scripts/lib/gcp.js`. -/
def clsCat (cls : List Char) : Option String :=
  if cls == "STANDARD".data then some "general"
  else if cls == "HIGHCPU".data then some "compute"
  else if cls == "HIGHMEM".data then some "memory"
  else if cls == "ULTRAMEM".data then some "memory"
  else if cls == "MEGAMEM".data then some "memory"
  else none

/-- The category decision of `classifyGcpInstance` once the anchored pattern
matched: the class token's table entry first, then the series allow-lists. -/
def classifyGcpRegexResult (series cls : List Char) : Option String :=
  match clsCat cls with
  | some c => some c
  | none =>
    if (["C2", "C2D", "C3", "C3D", "C4", "C4D", "C4A", "H3",
        "H4D"].map String.data).contains series then some "compute"
    else if (["M1", "M2", "M3", "M4"].map String.data).contains series then
      some "memory"
    else if (["E2", "N1", "N2", "N2D", "N4", "N4A", "N4D", "T2A",
        "T2D"].map String.data).contains series then some "general"
    else none

/-- The anchored-pattern test and classification of `classifyGcpInstance` on
the underscore token: the token must split as `series_CLASS_digits` with a
nonempty `[A-Z0-9]+` series, a class word from the table, and a nonempty
digit run. -/
def classifyGcpTok (tok : List Char) : Option String :=
  match splitUnd tok with
  | [series, cls, ds] =>
    if !series.isEmpty && series.all isUpperAlnum && (clsCat cls).isSome &&
       !ds.isEmpty && ds.all Char.isDigit then
      classifyGcpRegexResult series cls
    else none
  | _ => none

/-- `classifyGcpInstance` from `scripts/lib/gcp.js`: `null` for an empty or
`custom-` name, else uppercase, turn `-` into `_`, require the anchored
`series_CLASS_digits` shape, and classify. -/
def classifyGcpInstance (instName : String) : Option String :=
  if instName == "" then none
  else if strStartsWith (lowerStr instName) "custom-" then none
  else classifyGcpTok
    ((upperStr instName).data.map (fun c => if c == '-' then '_' else c))

-- docs/ui/utils.js

/-- Ascending numeric sort (`allowed.sort((a, b) => a - b)`), written as an
insertion sort so that it evaluates by reduction. -/
def sortAsc (l : List ℚ) : List ℚ := l.insertionSort (fun a b => a ≤ b)

/-- `nearestCeil` from `docs/ui/utils.js`: the first band (ascending) at or
above the request, else the largest band, else `null`. -/
def nearestCeil (requested : ℚ) (allowed : List ℚ) : Option ℚ :=
  let sorted := sortAsc allowed
  match sorted.find? (fun s => requested ≤ s) with
  | some s => some s
  | none => sorted.getLast?

/-- `sizeToAzureSku` from `docs/ui/utils.js` (`null` size falls through the
table lookup because `isFinite(null)` is `true`). -/
def sizeToAzureSku (type : String) (size : Option ℚ) : Option String :=
  let mp : List (ℚ × String) :=
    if type == "ssd" then
      [(4, "E1"), (8, "E2"), (16, "E3"), (32, "E4"), (64, "E6"), (128, "E10"),
       (256, "E15"), (512, "E20"), (1024, "E30"), (2048, "E40"), (4096, "E50")]
    else
      [(32, "S4"), (64, "S6"), (128, "S10"), (256, "S15"), (512, "S20"),
       (1024, "S30"), (2048, "S40"), (4096, "S50")]
  match size with
  | none => none
  | some s => (mp.find? (fun p => p.1 == s)).map (fun p => p.2)

/-- An Azure storage configuration (`ssd_monthly`/`hdd_monthly` lookup
tables as band-size/price pairs; JavaScript object keys are unique). -/
structure AzCfg where
  ssd_monthly : List (ℚ × ℚ)
  hdd_monthly : List (ℚ × ℚ)
  deriving DecidableEq, Repr

/-- The result record of `getAzureStorageSkuAndMonthlyFromCfg`. -/
structure AzStorageResult where
  sku : Option String
  size : Option ℚ
  monthlyUSD : Option ℚ
  adjusted : Bool
  deriving DecidableEq, Repr

/-- `tbl[size] ?? null` on a band table. -/
def lookupBand (tbl : List (ℚ × ℚ)) (s : ℚ) : Option ℚ :=
  (tbl.find? (fun p => p.1 == s)).map (fun p => p.2)

/-- `getAzureStorageSkuAndMonthlyFromCfg` from `docs/ui/utils.js`.  The HDD
branch re-derives the smallest band when `nearestCeil` returned `null` (dead
for nonempty tables) and floors the resolved size at `32`. -/
def getAzureStorageSkuAndMonthlyFromCfg (type : String) (gb : ℚ)
    (azCfg : AzCfg) : AzStorageResult :=
  let t := lowerStr (if type == "" then "hdd" else type)
  if gb ≤ 0 then ⟨none, none, none, false⟩
  else
    let ssdTbl := azCfg.ssd_monthly
    let hddTbl := azCfg.hdd_monthly
    if t == "ssd" then
      let size := nearestCeil gb (ssdTbl.map (fun p => p.1))
      let monthlyUSD :=
        match size with
        | some s => lookupBand ssdTbl s
        | none => none
      ⟨sizeToAzureSku "ssd" size, size, monthlyUSD,
        size.isSome && !(size == some gb)⟩
    else
      let allowed := hddTbl.map (fun p => p.1)
      let size0 := nearestCeil gb allowed
      let size1 :=
        if size0.isNone && !allowed.isEmpty then (sortAsc allowed).head?
        else size0
      let size2 :=
        match size1 with
        | some s => some (if s < 32 then (32 : ℚ) else s)
        | none => none
      let monthlyUSD :=
        match size2 with
        | some s => lookupBand hddTbl s
        | none => none
      ⟨sizeToAzureSku "hdd" size2, size2, monthlyUSD,
        size2.isSome && !(size2 == some gb)⟩

deriving instance DecidableEq for Except

-- Generic facts about the finders' selection loop.

/-- After the loop has a current best `b` (with score slot `sc b`), folding
any further elements yields a best element that is optimal — by score, then
by tie-breaker — relative to `b` and to the remaining elements, provided
every tie-breaker involved coerces to a finite number. -/
theorem scanStep_fold_inv {α : Type} (sc : α → ℚ) (tbL tbR : α → XNum)
    (pq : α → ℚ) :
    ∀ (l : List α) (b : α), tbL b = .fin (pq b) → tbR b = .fin (pq b) →
    (∀ x ∈ l, tbL x = .fin (pq x) ∧ tbR x = .fin (pq x)) →
    ∃ c, (l.foldl (scanStep sc tbL tbR) (some b, .fin (sc b))).1 = some c ∧
      (c = b ∨ c ∈ l) ∧ sc c ≤ sc b ∧ (∀ y ∈ l, sc c ≤ sc y) ∧
      (sc c = sc b → pq c ≤ pq b) ∧ (∀ y ∈ l, sc y = sc c → pq c ≤ pq y) := by
  intro l
  induction l with
  | nil =>
    intro b _ _ _
    exact ⟨b, rfl, Or.inl rfl, le_refl _, by simp, fun _ => le_refl _, by simp⟩
  | cons x xs ih =>
    intro b htbLb htbRb htb
    obtain ⟨htbLx, htbRx⟩ := htb x (List.mem_cons_self x xs)
    have htbxs : ∀ y ∈ xs, tbL y = .fin (pq y) ∧ tbR y = .fin (pq y) :=
      fun y hy => htb y (List.mem_cons_of_mem x hy)
    have hstep : scanStep sc tbL tbR (some b, .fin (sc b)) x =
        if sc x < sc b ∨ (sc x = sc b ∧ pq x < pq b)
        then (some x, .fin (sc x)) else (some b, .fin (sc b)) := by
      simp only [scanStep, xLt, xEq, htbLx, htbRb]
      by_cases h1 : sc x < sc b
      · simp [h1]
      · by_cases h2 : sc x = sc b
        · by_cases h3 : pq x < pq b
          · simp [h1, h2, h3]
          · simp [h1, h2, h3]
        · simp [h1, h2]
    by_cases hcond : sc x < sc b ∨ (sc x = sc b ∧ pq x < pq b)
    · rw [List.foldl_cons, hstep, if_pos hcond]
      obtain ⟨c, hres, hmem, hscx, hall, htiex, htieall⟩ :=
        ih x htbLx htbRx htbxs
      refine ⟨c, hres, ?_, ?_, ?_, ?_, ?_⟩
      · rcases hmem with h | h
        · exact Or.inr (h ▸ List.mem_cons_self x xs)
        · exact Or.inr (List.mem_cons_of_mem x h)
      · rcases hcond with h | ⟨h, _⟩
        · exact le_of_lt (lt_of_le_of_lt hscx h)
        · exact h ▸ hscx
      · intro y hy
        rcases List.mem_cons.mp hy with rfl | hy
        · exact hscx
        · exact hall y hy
      · intro hcb
        rcases hcond with h | ⟨hsc, hpq⟩
        · exact absurd hcb (ne_of_lt (lt_of_le_of_lt hscx h))
        · exact le_of_lt (lt_of_le_of_lt (htiex (hcb.trans hsc.symm)) hpq)
      · intro y hy hsy
        rcases List.mem_cons.mp hy with rfl | hy
        · exact htiex hsy.symm
        · exact htieall y hy hsy
    · rw [List.foldl_cons, hstep, if_neg hcond]
      push_neg at hcond
      obtain ⟨hble, htieb⟩ := hcond
      obtain ⟨c, hres, hmem, hscb, hall, htieb', htieall⟩ :=
        ih b htbLb htbRb htbxs
      refine ⟨c, hres, ?_, hscb, ?_, htieb', ?_⟩
      · rcases hmem with h | h
        · exact Or.inl h
        · exact Or.inr (List.mem_cons_of_mem x h)
      · intro y hy
        rcases List.mem_cons.mp hy with h | hy
        · subst h
          exact le_trans hscb hble
        · exact hall y hy
      · intro y hy hsy
        rcases List.mem_cons.mp hy with h | hy
        · subst h
          have hcb : sc c = sc b := le_antisymm hscb (hsy ▸ hble)
          have hyb : sc y = sc b := hsy.trans hcb
          exact le_trans (htieb' hcb) (htieb hyb)
        · exact htieall y hy hsy

/-- The selection loop over a nonempty candidate list with finite
tie-breakers returns an element of minimal score; among minimal-score
elements it has the least tie-breaker. -/
theorem scanBest_spec {α : Type} (sc : α → ℚ) (tbL tbR : α → XNum)
    (pq : α → ℚ) (l : List α) (hne : l ≠ [])
    (htb : ∀ x ∈ l, tbL x = .fin (pq x) ∧ tbR x = .fin (pq x)) :
    ∃ c, scanBest sc tbL tbR l = some c ∧ c ∈ l ∧
      (∀ y ∈ l, sc c ≤ sc y) ∧ (∀ y ∈ l, sc y = sc c → pq c ≤ pq y) := by
  match l, hne with
  | x :: xs, _ =>
    have htbLx := (htb x (List.mem_cons_self x xs)).1
    have htbRx := (htb x (List.mem_cons_self x xs)).2
    have hfirst : scanStep sc tbL tbR (none, .posInf) x = (some x, .fin (sc x)) := by
      simp [scanStep, xLt]
    obtain ⟨c, hres, hmem, hscx, hall, htiex, htieall⟩ :=
      scanStep_fold_inv sc tbL tbR pq xs x htbLx htbRx
        (fun y hy => htb y (List.mem_cons_of_mem x hy))
    refine ⟨c, by simpa [scanBest, hfirst] using hres, ?_, ?_, ?_⟩
    · rcases hmem with h | h
      · exact h ▸ List.mem_cons_self x xs
      · exact List.mem_cons_of_mem x h
    · intro y hy
      rcases List.mem_cons.mp hy with h | hy2
      · subst h
        exact hscx
      · exact hall y hy2
    · intro y hy hsy
      rcases List.mem_cons.mp hy with h | hy2
      · subst h
        exact htiex hsy.symm
      · exact htieall y hy2 hsy

/-- Once a best candidate exists, the loop always returns one, and it comes
from the current best or the remaining elements (no tie-breaker hypotheses
needed). -/
theorem scanStep_fold_mem {α : Type} (sc : α → ℚ) (tbL tbR : α → XNum) :
    ∀ (l : List α) (b : α) (s : XNum),
    ∃ c, (l.foldl (scanStep sc tbL tbR) (some b, s)).1 = some c ∧
      (c = b ∨ c ∈ l) := by
  intro l
  induction l with
  | nil => exact fun b s => ⟨b, rfl, Or.inl rfl⟩
  | cons x xs ih =>
    intro b s
    rw [List.foldl_cons]
    by_cases hc : (xLt (.fin (sc x)) s ||
        (xEq (.fin (sc x)) s && xLt (tbL x) (tbR b))) = true
    · have : scanStep sc tbL tbR (some b, s) x = (some x, .fin (sc x)) := by
        simp only [scanStep]
        rw [if_pos hc]
      rw [this]
      obtain ⟨c, hres, hmem⟩ := ih x (.fin (sc x))
      refine ⟨c, hres, ?_⟩
      rcases hmem with h | h
      · exact Or.inr (h ▸ List.mem_cons_self x xs)
      · exact Or.inr (List.mem_cons_of_mem x h)
    · have : scanStep sc tbL tbR (some b, s) x = (some b, s) := by
        simp only [scanStep]
        rw [if_neg hc]
      rw [this]
      obtain ⟨c, hres, hmem⟩ := ih b s
      refine ⟨c, hres, ?_⟩
      rcases hmem with h | h
      · exact Or.inl h
      · exact Or.inr (List.mem_cons_of_mem x h)

/-- The selection loop over a nonempty list returns an element of the
list. -/
theorem scanBest_mem {α : Type} (sc : α → ℚ) (tbL tbR : α → XNum)
    (l : List α) (hne : l ≠ []) :
    ∃ c, scanBest sc tbL tbR l = some c ∧ c ∈ l := by
  match l, hne with
  | x :: xs, _ =>
    have hfirst : scanStep sc tbL tbR (none, .posInf) x = (some x, .fin (sc x)) := by
      simp [scanStep, xLt]
    obtain ⟨c, hres, hmem⟩ := scanStep_fold_mem sc tbL tbR xs x (.fin (sc x))
    refine ⟨c, by simpa [scanBest, hfirst] using hres, ?_⟩
    rcases hmem with h | h
    · exact h ▸ List.mem_cons_self x xs
    · exact List.mem_cons_of_mem x h

-- Facts about the index-tracking filter.

/-- Dropping the indices of `filterIdx` gives `List.filter`. -/
theorem filterIdx_map_snd (p : InstanceRecord → Bool) :
    ∀ (n : Nat) (l : List InstanceRecord),
    (filterIdx p n l).map (fun e => e.2) = l.filter p := by
  intro n l
  induction l generalizing n with
  | nil => rfl
  | cons x xs ih =>
    by_cases hp : p x
    · simp [filterIdx, hp, List.filter_cons, ih]
    · simp [filterIdx, hp, List.filter_cons, ih]

/-- Membership in `filterIdx` recovers the list position, membership and the
predicate. -/
theorem mem_filterIdx (p : InstanceRecord → Bool) :
    ∀ (n : Nat) (l : List InstanceRecord) (i : Nat) (x : InstanceRecord),
    (i, x) ∈ filterIdx p n l →
    ∃ j, i = n + j ∧ l.get? j = some x ∧ p x = true := by
  intro n l
  induction l generalizing n with
  | nil => intro i x h; simp [filterIdx] at h
  | cons y ys ih =>
    intro i x h
    by_cases hp : p y
    · rw [filterIdx, if_pos hp] at h
      rcases List.mem_cons.mp h with h | h
      · injection h with h1 h2
        exact ⟨0, by omega, by simp [h2], by rw [h2]; exact hp⟩
      · obtain ⟨j, hj1, hj2, hj3⟩ := ih (n + 1) i x h
        exact ⟨j + 1, by omega, by simpa using hj2, hj3⟩
    · rw [filterIdx, if_neg hp] at h
      obtain ⟨j, hj1, hj2, hj3⟩ := ih (n + 1) i x h
      exact ⟨j + 1, by omega, by simpa using hj2, hj3⟩

/-- A list element satisfying the predicate appears in `filterIdx`. -/
theorem filterIdx_mem_of (p : InstanceRecord → Bool) :
    ∀ (n : Nat) (l : List InstanceRecord) (x : InstanceRecord), x ∈ l →
    p x = true → ∃ i, (i, x) ∈ filterIdx p n l := by
  intro n l
  induction l generalizing n with
  | nil => intro x h; simp at h
  | cons y ys ih =>
    intro x hx hp
    rcases List.mem_cons.mp hx with h | h
    · subst h
      exact ⟨n, by rw [filterIdx, if_pos hp]; exact List.mem_cons_self _ _⟩
    · obtain ⟨i, hi⟩ := ih (n + 1) x h hp
      by_cases hpy : p y
      · exact ⟨i, by rw [filterIdx, if_pos hpy]; exact List.mem_cons_of_mem _ hi⟩
      · exact ⟨i, by rw [filterIdx, if_neg hpy]; exact hi⟩

/-- `filterIdx` is empty exactly when no element satisfies the predicate. -/
theorem filterIdx_eq_nil (p : InstanceRecord → Bool) :
    ∀ (n : Nat) (l : List InstanceRecord),
    (∀ x ∈ l, p x = false) → filterIdx p n l = [] := by
  intro n l
  induction l generalizing n with
  | nil => intro _; rfl
  | cons y ys ih =>
    intro h
    rw [filterIdx, if_neg (by simp [h y (List.mem_cons_self y ys)])]
    exact ih (n + 1) (fun x hx => h x (List.mem_cons_of_mem y hx))

-- Small bridging facts about the JavaScript value model.

theorem jIsFinite_num (q : ℚ) : jIsFinite (JVal.num q) = true := rfl

theorem toNumQ_num (q : ℚ) : toNumQ (JVal.num q) = q := rfl

theorem distance_num (a b : ℚ) :
    distance (JVal.num a) (JVal.num b) = absQ (a - b) := rfl

theorem questInf_num (q : ℚ) : questInf (JVal.num q) = XNum.fin q := rfl

theorem toNumber_num (q : ℚ) : toNumber (JVal.num q) = XNum.fin q := rfl

-- Facts about the Azure enrichment map and family matcher.

theorem enrichAzure_of_finite (x : InstanceRecord)
    (h1 : jIsFinite x.vcpu = true) (h2 : jIsFinite x.ram = true) :
    enrichAzure x = x := by
  simp [enrichAzure, h1, h2]

theorem enrichAzure_category (x : InstanceRecord) :
    (enrichAzure x).category = x.category := by
  unfold enrichAzure
  split <;> rfl

theorem enrichAzure_inst (x : InstanceRecord) :
    (enrichAzure x).inst = x.inst := by
  unfold enrichAzure
  split <;> rfl

theorem azureFamilyMatch_congr (x y : InstanceRecord) (family : String)
    (h1 : x.category = y.category) (h2 : x.inst = y.inst) :
    azureFamilyMatch x family = azureFamilyMatch y family := by
  simp only [azureFamilyMatch, h1, h2]

theorem awsScore_eval (v m a b : ℚ) (x : InstanceRecord)
    (ha : x.vcpu = JVal.num a) (hb : x.ram = JVal.num b) :
    awsScore v m x = absQ (a - v) + absQ (b - m) := by
  simp [awsScore, ha, hb, distance_num]

theorem gcpScore_eval (v m a b : ℚ) (x : InstanceRecord)
    (ha : x.vcpu = JVal.num a) (hb : x.ram = JVal.num b) :
    gcpScore v m x = absQ (a - v) + absQ (b - m) := by
  simp [gcpScore, ha, hb, toNumQ_num]

theorem azScore_eval (v m a b : ℚ) (x : InstanceRecord)
    (ha : x.vcpu = JVal.num a) (hb : x.ram = JVal.num b)
    (hos : x.os ≠ "Unknown") :
    azScore v m x = absQ (a - v) + absQ (b - m) := by
  have : (x.os == "Unknown") = false := by
    exact beq_eq_false_iff_ne.mpr hos
  simp [azScore, ha, hb, distance_num, this, jIsFinite_num]

-- The relaxation structure of findBestAzure.

theorem azurePreIdx_strict (list : List InstanceRecord) (wantOS family : String)
    (h : filterIdx (azureP1 wantOS family) 0 list ≠ []) :
    azurePreIdx list wantOS family = filterIdx (azureP1 wantOS family) 0 list := by
  unfold azurePreIdx
  have h1 : (filterIdx (azureP1 wantOS family) 0 list).isEmpty = false := by
    simpa [List.isEmpty_iff] using h
  simp [h1]

-- Totality of the classifiers (claim C7).

/-- Case analysis for the `CLASS_TO_CATEGORY` table. -/
theorem clsCat_cases (cls : List Char) :
    clsCat cls = none ∨ clsCat cls = some "general" ∨
    clsCat cls = some "compute" ∨ clsCat cls = some "memory" := by
  unfold clsCat
  repeat' split
  all_goals simp

/-- Case analysis for the post-match category decision. -/
theorem classifyGcpRegexResult_cases (series cls : List Char) :
    classifyGcpRegexResult series cls = none ∨
    classifyGcpRegexResult series cls = some "general" ∨
    classifyGcpRegexResult series cls = some "compute" ∨
    classifyGcpRegexResult series cls = some "memory" := by
  unfold classifyGcpRegexResult
  rcases clsCat_cases cls with h | h | h | h <;> rw [h]
  · repeat' split
    all_goals simp_all
  all_goals simp

/-- C7 counterexample: `categorizeByInstanceName` returns the string
`"other"` — a value outside the claimed range general/compute/memory/null —
for example on `"Standard_A1_v2"`. -/
theorem c7_categorize_returns_other :
    categorizeByInstanceName "Standard_A1_v2" = "other" ∧
    "other" ∉ (["general", "compute", "memory"] : List String) := by
  decide

/-- Case analysis for the leading-letter decision. -/
theorem azureLeadCat_cases (o : Option Char) :
    azureLeadCat o = "general" ∨ azureLeadCat o = "memory" ∨
    azureLeadCat o = "compute" ∨ azureLeadCat o = "other" := by
  cases o with
  | none => simp [azureLeadCat]
  | some l =>
    unfold azureLeadCat
    repeat' split
    all_goals simp

/-- Case analysis for the token classification. -/
theorem classifyGcpTok_cases (tok : List Char) :
    classifyGcpTok tok = none ∨ classifyGcpTok tok = some "general" ∨
    classifyGcpTok tok = some "compute" ∨ classifyGcpTok tok = some "memory" := by
  cases h1 : splitUnd tok with
  | nil => simp [classifyGcpTok, h1]
  | cons s0 t0 =>
    cases t0 with
    | nil => simp [classifyGcpTok, h1]
    | cons s1 t1 =>
      cases t1 with
      | nil => simp [classifyGcpTok, h1]
      | cons s2 t2 =>
        cases t2 with
        | nil =>
          by_cases hc : (!s0.isEmpty && s0.all isUpperAlnum &&
              (clsCat s1).isSome && !s2.isEmpty && s2.all Char.isDigit) = true
          · have h2 : classifyGcpTok tok = classifyGcpRegexResult s0 s1 := by
              simp [classifyGcpTok, h1, hc]
            rw [h2]
            exact classifyGcpRegexResult_cases _ _
          · simp [classifyGcpTok, h1, hc]
        | cons s3 t3 => simp [classifyGcpTok, h1]

/-- C7 (amended): both classifiers are total functions; `classifyGcpInstance`
returns one of general/compute/memory or `null`, while
`categorizeByInstanceName` returns one of general/compute/memory or the
fallback string `"other"` (never `null`). -/
theorem c7_classifier_totality :
    (∀ s : String, categorizeByInstanceName s = "general" ∨
      categorizeByInstanceName s = "memory" ∨
      categorizeByInstanceName s = "compute" ∨
      categorizeByInstanceName s = "other") ∧
    (∀ s : String, classifyGcpInstance s = none ∨
      classifyGcpInstance s = some "general" ∨
      classifyGcpInstance s = some "compute" ∨
      classifyGcpInstance s = some "memory") := by
  constructor
  · intro s
    unfold categorizeByInstanceName
    exact azureLeadCat_cases _
  · intro s
    by_cases hA : (s == "") = true
    · simp [classifyGcpInstance, hA]
    · by_cases hB : strStartsWith (lowerStr s) "custom-" = true
      · simp [classifyGcpInstance, hA, hB]
      · have h : classifyGcpInstance s = classifyGcpTok
            ((upperStr s).data.map (fun c => if c == '-' then '_' else c)) := by
          simp [classifyGcpInstance, hA, hB]
        rw [h]
        exact classifyGcpTok_cases _

/-- C8: the fetch pipeline's write guard: an empty (or non-array)
deduplicated list makes the pipeline warn and return before writing, leaving
the previously published file untouched; a nonempty list proceeds to the
write. -/
theorem c8_skip_write_on_empty {α : Type} :
    ∀ (prevFile : Option α) (out : α) (l : List InstanceRecord),
    azureFetchWriteStep prevFile none out = (prevFile, true) ∧
    azureFetchWriteStep prevFile (some []) out = (prevFile, true) ∧
    (l ≠ [] → azureFetchWriteStep prevFile (some l) out = (some out, false)) := by
  intro prevFile out l
  refine ⟨rfl, rfl, fun h => ?_⟩
  unfold azureFetchWriteStep warnAndSkipWriteOnEmpty
  simp [h]

/-- Witness for C8 at concrete inputs. -/
theorem c8_skip_write_on_empty_witness :
    ([mkRow "m5.large" (.num 2) (.num 8) (.num 1) "Linux" ""] ≠
      ([] : List InstanceRecord)) ∧
    azureFetchWriteStep (some (0 : Nat)) none 1 = (some 0, true) ∧
    azureFetchWriteStep (some (0 : Nat)) (some []) 1 = (some 0, true) ∧
    azureFetchWriteStep (some (0 : Nat))
      (some [mkRow "m5.large" (.num 2) (.num 8) (.num 1) "Linux" ""]) 1 =
      (some 1, false) := by
  refine ⟨by decide, ?_, ?_, ?_⟩
  · exact (c8_skip_write_on_empty (some 0) 1 []).1
  · exact (c8_skip_write_on_empty (some 0) 1 []).2.1
  · exact (c8_skip_write_on_empty (some 0) 1
      [mkRow "m5.large" (.num 2) (.num 8) (.num 1) "Linux" ""]).2.2 (by decide)

/-- C10: every value whose lowercased form does not start with `"win"` —
including `"Unknown"`, the empty string, and nullish values — normalizes to
`"linux"`; consequently a record with `os = "Unknown"` passes
`findBestAws`'s filter for requested OS `"Linux"` (given the other filter
conjuncts). -/
theorem c10_normalizeOs_default_linux :
    (∀ s : String, strStartsWith (lowerStr s) "win" = false →
      normalizeOs s = "linux") ∧
    normalizeOs "Unknown" = "linux" ∧ normalizeOs "" = "linux" ∧
    normalizeOsVal none = "linux" ∧
    (∀ x : InstanceRecord, x.os = "Unknown" → isOnDemandShared x = true →
      jIsFinite x.vcpu = true → jIsFinite x.ram = true →
      jIsFinite x.pricePerHourUSD = true →
      ∀ family : String, isAwsInFamily x.inst family = true →
      awsFilterPred (lowerStr "Linux") family x = true) := by
  refine ⟨?_, by decide, by decide, by decide, ?_⟩
  · intro s h
    simp [normalizeOs, h]
  · intro x hos hod hv hr hp family hfam
    have h1 : normalizeOs x.os = "linux" := by rw [hos]; decide
    have h2 : lowerStr "Linux" = "linux" := by decide
    simp [awsFilterPred, hod, hv, hr, hp, hfam, h1, h2]

/-- Witness for C10 at concrete inputs. -/
theorem c10_normalizeOs_default_linux_witness :
    (strStartsWith (lowerStr "Unknown") "win" = false ∧
      normalizeOs "Unknown" = "linux") ∧
    ((mkRow "m5.large" (.num 2) (.num 8) (.num 1) "Unknown" "").os =
      "Unknown" ∧
     isOnDemandShared (mkRow "m5.large" (.num 2) (.num 8) (.num 1) "Unknown" "") =
      true ∧
     awsFilterPred (lowerStr "Linux") ""
      (mkRow "m5.large" (.num 2) (.num 8) (.num 1) "Unknown" "") = true) := by
  refine ⟨⟨by decide, ?_⟩, by decide, by decide, ?_⟩
  · exact c10_normalizeOs_default_linux.1 "Unknown" (by decide)
  · exact c10_normalizeOs_default_linux.2.2.2.2
      (mkRow "m5.large" (.num 2) (.num 8) (.num 1) "Unknown" "")
      (by decide) (by decide) (by decide) (by decide) (by decide) ""
      (by decide)

-- Sorted-list facts for the storage band resolution (claim C9).

theorem sortAsc_perm (l : List ℚ) : (sortAsc l).Perm l :=
  List.perm_insertionSort _ l

theorem mem_sortAsc (x : ℚ) (l : List ℚ) : x ∈ sortAsc l ↔ x ∈ l :=
  (sortAsc_perm l).mem_iff

theorem sortAsc_sorted (l : List ℚ) :
    List.Sorted (fun a b : ℚ => a ≤ b) (sortAsc l) :=
  List.sorted_insertionSort _ l

theorem sortAsc_ne_nil (l : List ℚ) (h : l ≠ []) : sortAsc l ≠ [] := by
  intro hc
  apply h
  have hlen := (sortAsc_perm l).length_eq
  rw [hc] at hlen
  exact List.length_eq_zero.mp hlen.symm

/-- A nonempty list has a last element. -/
theorem getLast?_some_of_ne_nil (l : List ℚ) (h : l ≠ []) :
    ∃ m, l.getLast? = some m := by
  cases hl : l.getLast? with
  | some m => exact ⟨m, rfl⟩
  | none => exact absurd (List.getLast?_eq_none_iff.mp hl) h

/-- The last element of a sorted list is a member. -/
theorem getLast?_mem (l : List ℚ) (m : ℚ) (h : l.getLast? = some m) :
    m ∈ l := by
  induction l with
  | nil => simp at h
  | cons a as ih =>
    cases as with
    | nil =>
      simp [List.getLast?] at h
      simp [h]
    | cons b bs =>
      rw [List.getLast?_cons_cons] at h
      exact List.mem_cons_of_mem a (ih h)

/-- Every element of an ascending-sorted list is at most its last element. -/
theorem sorted_le_getLast? (l : List ℚ)
    (hs : List.Sorted (fun a b : ℚ => a ≤ b) l) (m : ℚ)
    (h : l.getLast? = some m) : ∀ x ∈ l, x ≤ m := by
  induction l with
  | nil => simp
  | cons a as ih =>
    intro x hx
    cases as with
    | nil =>
      simp [List.getLast?] at h
      simp at hx
      simp [hx, h]
    | cons b bs =>
      rw [List.getLast?_cons_cons] at h
      have hs2 := (List.sorted_cons.mp hs).2
      rcases List.mem_cons.mp hx with h1 | h1
      · subst h1
        have hm : m ∈ b :: bs := getLast?_mem _ _ h
        exact (List.sorted_cons.mp hs).1 m hm
      · exact ih hs2 h x h1

/-- In an ascending-sorted list, the element found by `find?` with an
upward-closed bound `gb ≤ ·` is the least member at or above `gb`. -/
theorem sorted_find?_least (gb : ℚ) (l : List ℚ)
    (hs : List.Sorted (fun a b : ℚ => a ≤ b) l) (s : ℚ)
    (h : l.find? (fun t => decide (gb ≤ t)) = some s) :
    ∀ y ∈ l, gb ≤ y → s ≤ y := by
  induction l with
  | nil => simp at h
  | cons a as ih =>
    by_cases ha : gb ≤ a
    · have : (a :: as).find? (fun t => decide (gb ≤ t)) = some a := by
        simp [List.find?_cons, ha]
      rw [this] at h
      injection h with h
      subst h
      intro y hy _
      rcases List.mem_cons.mp hy with h1 | h1
      · exact le_of_eq h1.symm
      · exact (List.sorted_cons.mp hs).1 y h1
    · have : (a :: as).find? (fun t => decide (gb ≤ t)) =
          as.find? (fun t => decide (gb ≤ t)) := by
        simp [List.find?_cons, ha]
      rw [this] at h
      intro y hy hgy
      rcases List.mem_cons.mp hy with h1 | h1
      · exact absurd (h1 ▸ hgy) ha
      · exact ih (List.sorted_cons.mp hs).2 h y h1 hgy

/-- Unfolding of the SSD branch of the storage resolver. -/
theorem getAzureSsd_eval (gb : ℚ) (cfg : AzCfg) (h : ¬ gb ≤ 0) :
    getAzureStorageSkuAndMonthlyFromCfg "ssd" gb cfg =
      ⟨sizeToAzureSku "ssd" (nearestCeil gb (cfg.ssd_monthly.map (fun p => p.1))),
       nearestCeil gb (cfg.ssd_monthly.map (fun p => p.1)),
       (match nearestCeil gb (cfg.ssd_monthly.map (fun p => p.1)) with
        | some s => lookupBand cfg.ssd_monthly s
        | none => none),
       (nearestCeil gb (cfg.ssd_monthly.map (fun p => p.1))).isSome &&
         !(nearestCeil gb (cfg.ssd_monthly.map (fun p => p.1)) == some gb)⟩ := by
  have h1 : ((("ssd" : String) == "")) = false := by decide
  have h2 : lowerStr "ssd" = "ssd" := by decide
  unfold getAzureStorageSkuAndMonthlyFromCfg
  rw [if_neg h]
  simp only [h1, Bool.false_eq_true, if_false, h2]
  rfl

/-- Unfolding of the HDD branch of the storage resolver. -/
theorem getAzureHdd_eval (gb : ℚ) (cfg : AzCfg) (h : ¬ gb ≤ 0) :
    getAzureStorageSkuAndMonthlyFromCfg "hdd" gb cfg =
      (let allowed := cfg.hdd_monthly.map (fun p => p.1)
       let size0 := nearestCeil gb allowed
       let size1 :=
         if size0.isNone && !allowed.isEmpty then (sortAsc allowed).head?
         else size0
       let size2 :=
         match size1 with
         | some s => some (if s < 32 then (32 : ℚ) else s)
         | none => none
       (⟨sizeToAzureSku "hdd" size2, size2,
        (match size2 with
         | some s => lookupBand cfg.hdd_monthly s
         | none => none),
        size2.isSome && !(size2 == some gb)⟩ : AzStorageResult)) := by
  have h1 : ((("hdd" : String) == "")) = false := by decide
  have h2 : lowerStr "hdd" = "hdd" := by decide
  have h3 : ((("hdd" : String) == "ssd")) = false := by decide
  unfold getAzureStorageSkuAndMonthlyFromCfg
  rw [if_neg h]
  simp only [h1, Bool.false_eq_true, if_false, h2, h3]

/-- The `nearestCeil` result when every band lies strictly below the
request: the largest band. -/
theorem nearestCeil_above_all (gb : ℚ) (keys : List ℚ) (hne : keys ≠ [])
    (hab : ∀ b ∈ keys, b < gb) :
    ∃ s, nearestCeil gb keys = some s ∧ s ∈ keys ∧ ∀ b ∈ keys, b ≤ s := by
  have hfind : (sortAsc keys).find? (fun t => decide (gb ≤ t)) = none := by
    rw [List.find?_eq_none]
    intro x hx
    simp only [decide_eq_true_eq]
    exact not_le.mpr (hab x ((mem_sortAsc x keys).mp hx))
  obtain ⟨m, hm⟩ := getLast?_some_of_ne_nil (sortAsc keys) (sortAsc_ne_nil keys hne)
  refine ⟨m, ?_, ?_, ?_⟩
  · simp [nearestCeil, hfind, hm]
  · exact (mem_sortAsc m keys).mp (getLast?_mem _ _ hm)
  · intro b hb
    exact sorted_le_getLast? _ (sortAsc_sorted keys) m hm b
      ((mem_sortAsc b keys).mpr hb)

/-- The `nearestCeil` result when some band is at or above the request: the
least such band. -/
theorem nearestCeil_some_above (gb : ℚ) (keys : List ℚ) (b0 : ℚ)
    (hb0 : b0 ∈ keys) (hge : gb ≤ b0) :
    ∃ s, nearestCeil gb keys = some s ∧ s ∈ keys ∧ gb ≤ s ∧
      ∀ b ∈ keys, gb ≤ b → s ≤ b := by
  have hmem : b0 ∈ sortAsc keys := (mem_sortAsc b0 keys).mpr hb0
  have hex : ∃ x, x ∈ sortAsc keys ∧ (fun t => decide (gb ≤ t)) x = true :=
    ⟨b0, hmem, by simpa using hge⟩
  cases hfind : (sortAsc keys).find? (fun t => decide (gb ≤ t)) with
  | none =>
    rw [List.find?_eq_none] at hfind
    obtain ⟨x, hx1, hx2⟩ := hex
    exact absurd hx2 (by simpa using hfind x hx1)
  | some s =>
    refine ⟨s, ?_, ?_, ?_, ?_⟩
    · simp [nearestCeil, hfind]
    · exact (mem_sortAsc s keys).mp (List.mem_of_find?_eq_some hfind)
    · simpa using List.find?_some hfind
    · intro b hb hgb
      exact sorted_find?_least gb (sortAsc keys) (sortAsc_sorted keys) s hfind
        b ((mem_sortAsc b keys).mpr hb) hgb

/-- The band table of the C9 examples: bands 64/128/256 GB. -/
def bandCfg : AzCfg :=
  ⟨[(64, 5), (128, 10), (256, 19)], [(64, 3), (128, 6), (256, 11)]⟩

/-- C9 counterexample: the HDD branch floors the resolved size at 32 GB, so
against an HDD band table with keys 8 and 16, a request of 20 GB (above the
largest band) resolves to 32 — which is not a band and in particular not the
largest band 16 — with no table price. -/
theorem c9_hdd_floor_breaks_clamp :
    getAzureStorageSkuAndMonthlyFromCfg "hdd" 20 ⟨[], [(8, 1), (16, 2)]⟩ =
      ⟨some "S4", some 32, none, true⟩ ∧
    (∀ b ∈ (([(8, 1), (16, 2)] : List (ℚ × ℚ)).map Prod.fst), b < 20 ∧ b ≠ 32) := by
  with_unfolding_all decide

/-- C9 (amended): banded storage resolution rounds the requested size up to
the nearest band and reports adjustment (100 → 128 adjusted, 128 → 128 not
adjusted); any size above the largest band is clamped to the largest band in
the SSD branch, while the HDD branch clamps to the largest band floored up
to 32 GB. -/
theorem c9_banded_storage_resolution :
    getAzureStorageSkuAndMonthlyFromCfg "ssd" 100 bandCfg =
      ⟨some "E10", some 128, some 10, true⟩ ∧
    getAzureStorageSkuAndMonthlyFromCfg "ssd" 128 bandCfg =
      ⟨some "E10", some 128, some 10, false⟩ ∧
    (∀ (cfg : AzCfg) (gb : ℚ), 0 < gb →
      cfg.ssd_monthly.map Prod.fst ≠ [] →
      (∀ b ∈ cfg.ssd_monthly.map Prod.fst, b < gb) →
      ∃ s, (getAzureStorageSkuAndMonthlyFromCfg "ssd" gb cfg).size = some s ∧
        s ∈ cfg.ssd_monthly.map Prod.fst ∧
        ∀ b ∈ cfg.ssd_monthly.map Prod.fst, b ≤ s) ∧
    (∀ (cfg : AzCfg) (gb : ℚ), 0 < gb →
      cfg.hdd_monthly.map Prod.fst ≠ [] →
      (∀ b ∈ cfg.hdd_monthly.map Prod.fst, b < gb) →
      ∃ s, s ∈ cfg.hdd_monthly.map Prod.fst ∧
        (∀ b ∈ cfg.hdd_monthly.map Prod.fst, b ≤ s) ∧
        (getAzureStorageSkuAndMonthlyFromCfg "hdd" gb cfg).size =
          some (if s < 32 then 32 else s)) ∧
    (∀ (cfg : AzCfg) (gb : ℚ), 0 < gb →
      ∀ b0 ∈ cfg.ssd_monthly.map Prod.fst, gb ≤ b0 →
      ∃ s, (getAzureStorageSkuAndMonthlyFromCfg "ssd" gb cfg).size = some s ∧
        gb ≤ s ∧ s ∈ cfg.ssd_monthly.map Prod.fst ∧
        (∀ b ∈ cfg.ssd_monthly.map Prod.fst, gb ≤ b → s ≤ b) ∧
        ((getAzureStorageSkuAndMonthlyFromCfg "ssd" gb cfg).adjusted = true ↔
          s ≠ gb)) := by
  refine ⟨by with_unfolding_all decide, by with_unfolding_all decide, ?_, ?_, ?_⟩
  · intro cfg gb hgb hne hab
    have h0 : ¬ gb ≤ 0 := not_le.mpr hgb
    obtain ⟨s, hs1, hs2, hs3⟩ := nearestCeil_above_all gb
      (cfg.ssd_monthly.map (fun p => p.1)) hne hab
    refine ⟨s, ?_, hs2, hs3⟩
    rw [getAzureSsd_eval gb cfg h0]
    simpa using hs1
  · intro cfg gb hgb hne hab
    have h0 : ¬ gb ≤ 0 := not_le.mpr hgb
    obtain ⟨s, hs1, hs2, hs3⟩ := nearestCeil_above_all gb
      (cfg.hdd_monthly.map (fun p => p.1)) hne hab
    refine ⟨s, hs2, hs3, ?_⟩
    rw [getAzureHdd_eval gb cfg h0]
    simp only [hs1, Option.isNone_some, Bool.false_and, Bool.false_eq_true,
      if_false]
  · intro cfg gb hgb b0 hb0 hge
    have h0 : ¬ gb ≤ 0 := not_le.mpr hgb
    obtain ⟨s, hs1, hs2, hs3, hs4⟩ := nearestCeil_some_above gb
      (cfg.ssd_monthly.map (fun p => p.1)) b0 hb0 hge
    refine ⟨s, ?_, hs3, hs2, hs4, ?_⟩
    · rw [getAzureSsd_eval gb cfg h0]
      simpa using hs1
    · rw [getAzureSsd_eval gb cfg h0]
      simp [hs1]

/-- Witness for C9 (amended) at concrete inputs. -/
theorem c9_banded_storage_resolution_witness :
    ((0 : ℚ) < 300 ∧ bandCfg.ssd_monthly.map Prod.fst ≠ [] ∧
      (∀ b ∈ bandCfg.ssd_monthly.map Prod.fst, b < 300) ∧
      (∃ s, (getAzureStorageSkuAndMonthlyFromCfg "ssd" 300 bandCfg).size = some s ∧
        s ∈ bandCfg.ssd_monthly.map Prod.fst ∧
        ∀ b ∈ bandCfg.ssd_monthly.map Prod.fst, b ≤ s)) ∧
    (∃ s, s ∈ bandCfg.hdd_monthly.map Prod.fst ∧
      (∀ b ∈ bandCfg.hdd_monthly.map Prod.fst, b ≤ s) ∧
      (getAzureStorageSkuAndMonthlyFromCfg "hdd" 300 bandCfg).size =
        some (if s < 32 then 32 else s)) ∧
    ((100 : ℚ) ≤ 128 ∧
      ∃ s, (getAzureStorageSkuAndMonthlyFromCfg "ssd" 100 bandCfg).size = some s ∧
        (100 : ℚ) ≤ s ∧ s ∈ bandCfg.ssd_monthly.map Prod.fst ∧
        (∀ b ∈ bandCfg.ssd_monthly.map Prod.fst, (100 : ℚ) ≤ b → s ≤ b) ∧
        ((getAzureStorageSkuAndMonthlyFromCfg "ssd" 100 bandCfg).adjusted = true ↔
          s ≠ 100)) := by
  refine ⟨⟨by norm_num, by with_unfolding_all decide,
    by with_unfolding_all decide, ?_⟩, ?_, by norm_num, ?_⟩
  · exact c9_banded_storage_resolution.2.2.1 bandCfg 300 (by norm_num)
      (by with_unfolding_all decide) (by with_unfolding_all decide)
  · exact c9_banded_storage_resolution.2.2.2.1 bandCfg 300 (by norm_num)
      (by with_unfolding_all decide) (by with_unfolding_all decide)
  · exact c9_banded_storage_resolution.2.2.2.2 bandCfg 100 (by norm_num) 128
      (by with_unfolding_all decide) (by norm_num)

-- The deduplicator (claim C2).

/-- The rational value of a record's price (for records whose price is an
actual number, this is that number). -/
def priceQ (r : InstanceRecord) : ℚ := toNumQ r.pricePerHourUSD

theorem lookupKey_none_iff (m : List (String × InstanceRecord)) (k : String) :
    lookupKey m k = none ↔ ∀ e ∈ m, e.1 ≠ k := by
  simp [lookupKey, List.find?_eq_none]

theorem lookupKey_some_mem (m : List (String × InstanceRecord)) (k : String)
    (v : InstanceRecord) (h : lookupKey m k = some v) : (k, v) ∈ m := by
  simp only [lookupKey, Option.map_eq_some'] at h
  obtain ⟨e, he, hev⟩ := h
  have h1 := List.mem_of_find?_eq_some he
  have h2 := List.find?_some he
  have h3 : e.1 = k := by simpa using h2
  have : e = (k, v) := by
    cases e
    simp_all
  exact this ▸ h1

theorem lookupKey_of_mem_nodup (m : List (String × InstanceRecord))
    (k : String) (v : InstanceRecord)
    (hnd : (m.map (fun e => e.1)).Nodup) (hmem : (k, v) ∈ m) :
    lookupKey m k = some v := by
  induction m with
  | nil => simp at hmem
  | cons e rest ih =>
    obtain ⟨k', v'⟩ := e
    rcases List.mem_cons.mp hmem with h | h
    · injection h with h1 h2
      subst h1
      subst h2
      simp [lookupKey, List.find?_cons]
    · have hk : k ∈ rest.map (fun e => e.1) :=
        List.mem_map.mpr ⟨(k, v), h, rfl⟩
      have hne : k' ≠ k := by
        intro hc
        subst hc
        exact (List.nodup_cons.mp (by simpa using hnd)).1 hk
      have := ih (List.nodup_cons.mp (by simpa using hnd)).2 h
      simpa [lookupKey, List.find?_cons, hne] using this

theorem setKey_append_of_absent (m : List (String × InstanceRecord))
    (k : String) (r : InstanceRecord) (h : ∀ e ∈ m, e.1 ≠ k) :
    setKey m k r = m ++ [(k, r)] := by
  induction m with
  | nil => rfl
  | cons e rest ih =>
    obtain ⟨k', v'⟩ := e
    have hne : k' ≠ k := h (k', v') (List.mem_cons_self _ _)
    simp only [setKey, beq_eq_false_iff_ne.mpr hne, Bool.false_eq_true,
      if_false, List.cons_append]
    rw [ih (fun e he => h e (List.mem_cons_of_mem _ he))]

theorem setKey_keys_of_mem (m : List (String × InstanceRecord)) (k : String)
    (r : InstanceRecord) (h : k ∈ m.map (fun e => e.1)) :
    (setKey m k r).map (fun e => e.1) = m.map (fun e => e.1) := by
  induction m with
  | nil => simp at h
  | cons e rest ih =>
    obtain ⟨k', v'⟩ := e
    by_cases hk : k' = k
    · subst hk
      simp [setKey]
    · have hkr : k ∈ rest.map (fun e => e.1) := by
        have h' : k = k' ∨ k ∈ rest.map (fun e => e.1) := by simpa using h
        rcases h' with h1 | h1
        · exact absurd h1.symm hk
        · exact h1
      simp only [setKey, beq_eq_false_iff_ne.mpr hk, Bool.false_eq_true,
        if_false, List.map_cons]
      rw [ih hkr]

theorem setKey_length_of_mem (m : List (String × InstanceRecord)) (k : String)
    (r : InstanceRecord) (h : k ∈ m.map (fun e => e.1)) :
    (setKey m k r).length = m.length := by
  have := congrArg List.length (setKey_keys_of_mem m k r h)
  simpa using this

theorem mem_setKey_nodup (m : List (String × InstanceRecord)) (k : String)
    (r : InstanceRecord) (hnd : (m.map (fun e => e.1)).Nodup) :
    ∀ e ∈ setKey m k r, e = (k, r) ∨ (e ∈ m ∧ e.1 ≠ k) := by
  induction m with
  | nil =>
    intro e he
    left
    simpa [setKey] using he
  | cons hd rest ih =>
    obtain ⟨k', v'⟩ := hd
    intro e he
    by_cases hk : k' = k
    · subst hk
      simp only [setKey, beq_self_eq_true, if_true] at he
      rcases List.mem_cons.mp he with h | h
      · exact Or.inl h
      · right
        refine ⟨List.mem_cons_of_mem _ h, ?_⟩
        intro hc
        have hkmem : e.1 ∈ rest.map (fun x => x.1) :=
          List.mem_map.mpr ⟨e, h, rfl⟩
        rw [hc] at hkmem
        exact (List.nodup_cons.mp (by simpa using hnd)).1 hkmem
    · simp only [setKey, beq_eq_false_iff_ne.mpr hk, Bool.false_eq_true,
        if_false] at he
      rcases List.mem_cons.mp he with h | h
      · subst h
        exact Or.inr ⟨List.mem_cons_self _ _, hk⟩
      · rcases ih (List.nodup_cons.mp (by simpa using hnd)).2 e h with h1 | h1
        · exact Or.inl h1
        · exact Or.inr ⟨List.mem_cons_of_mem _ h1.1, h1.2⟩

/-- The invariant maintained by `dedupeCheapestByKey`'s loop: after
processing `processed`, the map has pairwise-distinct keys, its keys are
exactly the keys seen so far, and each stored row is a first-seen
minimum-price row for its key. -/
def DedupInv (keyFn : InstanceRecord → String)
    (processed : List InstanceRecord)
    (m : List (String × InstanceRecord)) : Prop :=
  (m.map (fun e => e.1)).Nodup ∧
  (∀ k, k ∈ m.map (fun e => e.1) ↔ k ∈ processed.map keyFn) ∧
  (∀ e ∈ m, keyFn e.2 = e.1 ∧
    (∀ s ∈ processed, keyFn s = e.1 → priceQ e.2 ≤ priceQ s) ∧
    ∃ pre post, processed = pre ++ e.2 :: post ∧
      ∀ s ∈ pre, keyFn s = e.1 → priceQ e.2 < priceQ s) ∧
  m.length ≤ processed.length

/-- One loop iteration of the deduplicator preserves the invariant. -/
theorem dedupeStep_inv (keyFn : InstanceRecord → String)
    (processed : List InstanceRecord)
    (m : List (String × InstanceRecord)) (row : InstanceRecord)
    (hinv : DedupInv keyFn processed m)
    (hrow : ∃ q, row.pricePerHourUSD = JVal.num q)
    (hproc : ∀ r ∈ processed, ∃ q, r.pricePerHourUSD = JVal.num q) :
    DedupInv keyFn (processed ++ [row]) (dedupeStep keyFn m row) := by
  obtain ⟨inv1, inv2, inv3, inv4⟩ := hinv
  obtain ⟨qr, hqr⟩ := hrow
  simp only [dedupeStep]
  cases hlook : lookupKey m (keyFn row) with
  | none =>
    simp only [hlook]
    have habs : ∀ e ∈ m, e.1 ≠ keyFn row := (lookupKey_none_iff _ _).mp hlook
    have hknotkeys : keyFn row ∉ m.map (fun e => e.1) := by
      intro hc
      obtain ⟨e, he, hek⟩ := List.mem_map.mp hc
      exact habs e he hek
    have hknotproc : keyFn row ∉ processed.map keyFn := fun hc =>
      hknotkeys ((inv2 (keyFn row)).mpr hc)
    rw [setKey_append_of_absent m (keyFn row) row habs]
    refine ⟨?_, ?_, ?_, ?_⟩
    · rw [List.map_append]
      refine List.Nodup.append inv1 (by simp) ?_
      intro a ha hb
      simp only [List.map_cons, List.map_nil, List.mem_singleton] at hb
      exact hknotkeys (hb ▸ ha)
    · intro k
      rw [List.map_append, List.map_append]
      simp only [List.mem_append, List.map_cons, List.map_nil,
        List.mem_singleton]
      constructor
      · rintro (h | h)
        · exact Or.inl ((inv2 k).mp h)
        · exact Or.inr h
      · rintro (h | h)
        · exact Or.inl ((inv2 k).mpr h)
        · exact Or.inr h
    · intro e he
      rcases List.mem_append.mp he with h | h
      · obtain ⟨hk, hmin, pre, post, hdec, hpre⟩ := inv3 e h
        refine ⟨hk, ?_, pre, post ++ [row], ?_, hpre⟩
        · intro s hs hks
          rcases List.mem_append.mp hs with hs | hs
          · exact hmin s hs hks
          · rw [List.mem_singleton.mp hs] at hks
            exact absurd hks.symm (habs e h)
        · rw [hdec]
          simp
      · rw [List.mem_singleton.mp h]
        refine ⟨rfl, ?_, processed, [], rfl, ?_⟩
        · intro s hs hks
          rcases List.mem_append.mp hs with hs | hs
          · exact absurd (List.mem_map.mpr ⟨s, hs, hks⟩) hknotproc
          · rw [List.mem_singleton.mp hs]
        · intro s hs hks
          exact absurd (List.mem_map.mpr ⟨s, hs, hks⟩) hknotproc
    · rw [List.length_append, List.length_append]
      simpa using inv4
  | some cur =>
    simp only [hlook]
    have hcurmem : (keyFn row, cur) ∈ m := lookupKey_some_mem _ _ _ hlook
    obtain ⟨hkcur, hmincur, precur, postcur, hdeccur, hprecur⟩ :=
      inv3 (keyFn row, cur) hcurmem
    have hcurproc : cur ∈ processed := by
      rw [hdeccur]
      simp
    obtain ⟨qc, hqc⟩ := hproc cur hcurproc
    have hkeys : keyFn row ∈ m.map (fun e => e.1) :=
      List.mem_map.mpr ⟨(keyFn row, cur), hcurmem, rfl⟩
    have hcmp : xLt (toNumber row.pricePerHourUSD)
        (toNumber cur.pricePerHourUSD) = decide (qr < qc) := by
      rw [hqr, hqc]
      rfl
    have hpriceQr : priceQ row = qr := by simp [priceQ, hqr, toNumQ_num]
    have hpriceQc : priceQ cur = qc := by simp [priceQ, hqc, toNumQ_num]
    by_cases hlt : qr < qc
    · rw [hcmp, if_pos (by simpa using hlt)]
      refine ⟨?_, ?_, ?_, ?_⟩
      · rw [setKey_keys_of_mem m _ row hkeys]
        exact inv1
      · intro k
        rw [setKey_keys_of_mem m _ row hkeys, List.map_append]
        simp only [List.mem_append, List.map_cons, List.map_nil,
          List.mem_singleton]
        constructor
        · intro h
          exact Or.inl ((inv2 k).mp h)
        · rintro (h | h)
          · exact (inv2 k).mpr h
          · exact h ▸ hkeys
      · intro e he
        rcases mem_setKey_nodup m _ row inv1 e he with h | ⟨hmem, hne⟩
        · subst h
          refine ⟨rfl, ?_, processed, [], rfl, ?_⟩
          · intro s hs hks
            rcases List.mem_append.mp hs with hs | hs
            · have := hmincur s hs hks
              rw [hpriceQr]
              rw [hpriceQc] at this
              exact le_trans (le_of_lt hlt) this
            · rw [List.mem_singleton.mp hs]
          · intro s hs hks
            have := hmincur s hs hks
            rw [hpriceQr]
            rw [hpriceQc] at this
            exact lt_of_lt_of_le hlt this
        · obtain ⟨hk, hmin, pre, post, hdec, hpre⟩ := inv3 e hmem
          refine ⟨hk, ?_, pre, post ++ [row], ?_, hpre⟩
          · intro s hs hks
            rcases List.mem_append.mp hs with hs | hs
            · exact hmin s hs hks
            · rw [List.mem_singleton.mp hs] at hks
              exact absurd hks.symm hne
          · rw [hdec]
            simp
      · rw [setKey_length_of_mem m _ row hkeys, List.length_append]
        simpa using le_trans inv4 (by simp)
    · rw [hcmp, if_neg (by simpa using hlt)]
      refine ⟨inv1, ?_, ?_, ?_⟩
      · intro k
        rw [List.map_append]
        simp only [List.mem_append, List.map_cons, List.map_nil,
          List.mem_singleton]
        constructor
        · intro h
          exact Or.inl ((inv2 k).mp h)
        · rintro (h | h)
          · exact (inv2 k).mpr h
          · exact h ▸ hkeys
      · intro e he
        obtain ⟨hk, hmin, pre, post, hdec, hpre⟩ := inv3 e he
        refine ⟨hk, ?_, pre, post ++ [row], ?_, hpre⟩
        · intro s hs hks
          rcases List.mem_append.mp hs with hs | hs
          · exact hmin s hs hks
          · rw [List.mem_singleton.mp hs] at hks ⊢
            by_cases hek : e.1 = keyFn row
            · have hecur : e.2 = cur := by
                have hl2 := lookupKey_of_mem_nodup m e.1 e.2 inv1 (by
                  cases e
                  exact he)
                rw [hek, hlook] at hl2
                injection hl2 with h2
                exact h2.symm
              rw [hecur, hpriceQc, hpriceQr]
              exact le_of_not_lt hlt
            · exact absurd hks.symm hek
        · rw [hdec]
          simp
      · rw [List.length_append]
        simpa using le_trans inv4 (by simp)

/-- Folding the deduplicator's loop over a suffix preserves the invariant. -/
theorem dedupeFold_inv (keyFn : InstanceRecord → String) :
    ∀ (l processed : List InstanceRecord)
      (m : List (String × InstanceRecord)),
    DedupInv keyFn processed m →
    (∀ r ∈ processed, ∃ q, r.pricePerHourUSD = JVal.num q) →
    (∀ r ∈ l, ∃ q, r.pricePerHourUSD = JVal.num q) →
    DedupInv keyFn (processed ++ l) (l.foldl (dedupeStep keyFn) m) := by
  intro l
  induction l with
  | nil =>
    intro processed m h _ _
    simpa using h
  | cons r rs ih =>
    intro processed m hinv hproc hl
    have hstep := dedupeStep_inv keyFn processed m r hinv
      (hl r (List.mem_cons_self r rs)) hproc
    have hproc' : ∀ s ∈ processed ++ [r], ∃ q, s.pricePerHourUSD = JVal.num q := by
      intro s hs
      rcases List.mem_append.mp hs with h | h
      · exact hproc s h
      · rw [List.mem_singleton.mp h]
        exact hl r (List.mem_cons_self r rs)
    rw [List.foldl_cons]
    have := ih (processed ++ [r]) (dedupeStep keyFn m r) hstep hproc'
      (fun s hs => hl s (List.mem_cons_of_mem r hs))
    simpa using this

/-- C2: for every input list (with numeric prices) and key function,
`dedupeCheapestByKey` returns exactly one row per distinct input key (output
keys are pairwise distinct and coincide with the input's key set), each
retained row is the first row in input order whose price equals the minimum
price among all input rows sharing its key (strict `<` keeps the first-seen
row on ties), and the output is never longer than the input. -/
theorem c2_dedupe_cheapest_by_key (list : List InstanceRecord)
    (keyFn : InstanceRecord → String)
    (hnum : ∀ r ∈ list, ∃ q, r.pricePerHourUSD = JVal.num q) :
    ((dedupeCheapestByKey list keyFn).map keyFn).Nodup ∧
    (∀ k, k ∈ (dedupeCheapestByKey list keyFn).map keyFn ↔
      k ∈ list.map keyFn) ∧
    (∀ r ∈ dedupeCheapestByKey list keyFn,
      (∀ s ∈ list, keyFn s = keyFn r → priceQ r ≤ priceQ s) ∧
      ∃ pre post, list = pre ++ r :: post ∧
        ∀ s ∈ pre, keyFn s = keyFn r → priceQ r < priceQ s) ∧
    (dedupeCheapestByKey list keyFn).length ≤ list.length := by
  have hbase : DedupInv keyFn [] [] := by
    refine ⟨by simp, by simp, by simp, by simp⟩
  have hinv : DedupInv keyFn list (list.foldl (dedupeStep keyFn) []) := by
    have := dedupeFold_inv keyFn list [] [] hbase (by simp) hnum
    simpa using this
  obtain ⟨inv1, inv2, inv3, inv4⟩ := hinv
  have hkeysmap : (list.foldl (dedupeStep keyFn) []).map
      (fun e => keyFn e.2) = (list.foldl (dedupeStep keyFn) []).map
      (fun e => e.1) :=
    List.map_congr_left (fun e he => (inv3 e he).1)
  refine ⟨?_, ?_, ?_, ?_⟩
  · unfold dedupeCheapestByKey
    rw [List.map_map]
    have : (keyFn ∘ fun e => e.2) = (fun e :
        String × InstanceRecord => keyFn e.2) := rfl
    rw [this, hkeysmap]
    exact inv1
  · intro k
    unfold dedupeCheapestByKey
    rw [List.map_map]
    have : (keyFn ∘ fun e => e.2) = (fun e :
        String × InstanceRecord => keyFn e.2) := rfl
    rw [this, hkeysmap]
    exact inv2 k
  · intro r hr
    unfold dedupeCheapestByKey at hr
    obtain ⟨e, he, her⟩ := List.mem_map.mp hr
    obtain ⟨hk, hmin, pre, post, hdec, hpre⟩ := inv3 e he
    rw [her] at hk
    refine ⟨?_, pre, post, by rw [hdec, her], ?_⟩
    · intro s hs hks
      rw [← her]
      exact hmin s hs (hk ▸ hks)
    · intro s hs hks
      rw [← her]
      exact hpre s hs (hk ▸ hks)
  · unfold dedupeCheapestByKey
    rw [List.length_map]
    exact inv4

/-- Witness for C2 at a concrete input: key = instance name, four rows with
two keys, a cheaper later row, and a tie decided by first appearance. -/
theorem c2_dedupe_cheapest_by_key_witness :
    (∀ r ∈ [mkRow "a" .null .null (.num 5) "Linux" "",
            mkRow "a" .null .null (.num 3) "Linux" "",
            mkRow "a" .null .null (.num 3) "Windows" "",
            mkRow "b" .null .null (.num 9) "Linux" ""],
      ∃ q, r.pricePerHourUSD = JVal.num q) ∧
    (((dedupeCheapestByKey
        [mkRow "a" .null .null (.num 5) "Linux" "",
         mkRow "a" .null .null (.num 3) "Linux" "",
         mkRow "a" .null .null (.num 3) "Windows" "",
         mkRow "b" .null .null (.num 9) "Linux" ""]
        (fun r => r.inst)).map (fun r => r.inst)).Nodup ∧
     (dedupeCheapestByKey
        [mkRow "a" .null .null (.num 5) "Linux" "",
         mkRow "a" .null .null (.num 3) "Linux" "",
         mkRow "a" .null .null (.num 3) "Windows" "",
         mkRow "b" .null .null (.num 9) "Linux" ""]
        (fun r => r.inst)).length ≤ 4) := by
  constructor
  · intro r hr
    simp only [List.mem_cons, List.not_mem_nil, or_false] at hr
    rcases hr with h | h | h | h
    · exact ⟨5, by rw [h]; rfl⟩
    · exact ⟨3, by rw [h]; rfl⟩
    · exact ⟨3, by rw [h]; rfl⟩
    · exact ⟨9, by rw [h]; rfl⟩
  · have h := c2_dedupe_cheapest_by_key
      [mkRow "a" .null .null (.num 5) "Linux" "",
       mkRow "a" .null .null (.num 3) "Linux" "",
       mkRow "a" .null .null (.num 3) "Windows" "",
       mkRow "b" .null .null (.num 9) "Linux" ""]
      (fun r => r.inst)
      (by
        intro r hr
        simp only [List.mem_cons, List.not_mem_nil, or_false] at hr
        rcases hr with h | h | h | h
        · exact ⟨5, by rw [h]; rfl⟩
        · exact ⟨3, by rw [h]; rfl⟩
        · exact ⟨3, by rw [h]; rfl⟩
        · exact ⟨9, by rw [h]; rfl⟩)
    exact ⟨h.1, h.2.2.2⟩

/-- A returned best element comes from the accumulator or the list. -/
theorem scanStep_fold_some {α : Type} (sc : α → ℚ) (tbL tbR : α → XNum) :
    ∀ (l : List α) (acc : Option α × XNum) (c : α),
    (l.foldl (scanStep sc tbL tbR) acc).1 = some c →
    acc.1 = some c ∨ c ∈ l := by
  intro l
  induction l with
  | nil =>
    intro acc c h
    exact Or.inl h
  | cons x xs ih =>
    intro acc c h
    rw [List.foldl_cons] at h
    rcases ih (scanStep sc tbL tbR acc x) c h with h1 | h1
    · unfold scanStep at h1
      by_cases hc : (xLt (.fin (sc x)) acc.2 || (xEq (.fin (sc x)) acc.2 &&
          xLt (tbL x) (match acc.1 with | none => XNum.posInf | some b => tbR b))) = true
      · rw [if_pos hc] at h1
        injection h1 with h1
        exact Or.inr (h1 ▸ List.mem_cons_self x xs)
      · rw [if_neg hc] at h1
        exact Or.inl h1
    · exact Or.inr (List.mem_cons_of_mem x h1)

/-- If the selection loop returns an element, it is in the list. -/
theorem scanBest_some_mem {α : Type} (sc : α → ℚ) (tbL tbR : α → XNum)
    (l : List α) (c : α) (h : scanBest sc tbL tbR l = some c) : c ∈ l := by
  rcases scanStep_fold_some sc tbL tbR l (none, .posInf) c h with h1 | h1
  · simp at h1
  · exact h1

/-- The Azure relaxation always evaluates to one of the three indexed
filters. -/
theorem azurePreIdx_eq_filterIdx (list : List InstanceRecord)
    (wantOS family : String) :
    ∃ p, azurePreIdx list wantOS family = filterIdx p 0 list := by
  simp only [azurePreIdx]
  split
  · split
    · exact ⟨azureP3 family, rfl⟩
    · exact ⟨azureP2 wantOS, rfl⟩
  · split
    · exact ⟨azureP3 family, rfl⟩
    · exact ⟨azureP1 wantOS family, rfl⟩

/-- The minimal-score and price-tie-break property of `findBestAws` on lists
whose records all pass the filter and carry numeric specs and prices. -/
theorem awsFindBest_minimal :
    ∀ (list : List InstanceRecord) (v m : ℚ) (os family : String),
    list ≠ [] →
    (∀ x ∈ list, awsFilterPred (lowerStr os) family x = true) →
    (∀ x ∈ list, ∃ a, x.vcpu = JVal.num a) →
    (∀ x ∈ list, ∃ b, x.ram = JVal.num b) →
    (∀ x ∈ list, ∃ p, x.pricePerHourUSD = JVal.num p) →
    ∃ b, findBestAws list v m os family = .ok (some b) ∧ b ∈ list ∧
      (∀ y ∈ list, absQ (toNumQ b.vcpu - v) + absQ (toNumQ b.ram - m) ≤
        absQ (toNumQ y.vcpu - v) + absQ (toNumQ y.ram - m)) ∧
      (∀ y ∈ list, absQ (toNumQ y.vcpu - v) + absQ (toNumQ y.ram - m) =
        absQ (toNumQ b.vcpu - v) + absQ (toNumQ b.ram - m) →
        priceQ b ≤ priceQ y) := by
  intro list v m os family hne hpass hv hr hp
  have hfeq : list.filter (awsFilterPred (lowerStr os) family) = list :=
    List.filter_eq_self.mpr hpass
  have hscore : ∀ y ∈ list, awsScore v m y =
      absQ (toNumQ y.vcpu - v) + absQ (toNumQ y.ram - m) := by
    intro y hy
    obtain ⟨a, ha⟩ := hv y hy
    obtain ⟨bq, hb⟩ := hr y hy
    rw [awsScore_eval v m a bq y ha hb, ha, hb, toNumQ_num, toNumQ_num]
  obtain ⟨c, hscan, hcmem, hmin, htie⟩ := scanBest_spec (awsScore v m)
    (fun x => toNumber x.pricePerHourUSD)
    (fun x => questInf x.pricePerHourUSD) priceQ list hne (by
      intro x hx
      obtain ⟨p, hp'⟩ := hp x hx
      constructor
      · show toNumber x.pricePerHourUSD = XNum.fin (priceQ x)
        rw [hp', toNumber_num]
        simp [priceQ, hp', toNumQ_num]
      · show questInf x.pricePerHourUSD = XNum.fin (priceQ x)
        rw [hp', questInf_num]
        simp [priceQ, hp', toNumQ_num])
  have hle : list.isEmpty = false := by simpa [List.isEmpty_iff] using hne
  refine ⟨c, ?_, hcmem, ?_, ?_⟩
  · simp only [findBestAws, hle, Bool.false_eq_true, if_false, hfeq]
    rw [hscan]
  · intro y hy
    have := hmin y hy
    rwa [hscore c hcmem, hscore y hy] at this
  · intro y hy heq
    exact htie y hy (by rw [hscore y hy, hscore c hcmem]; exact heq)

/-- The minimal-score and price-tie-break property of `findBestGcp` on lists
whose records all pass the filter and carry numeric specs and prices. -/
theorem gcpFindBest_minimal :
    ∀ (list : List InstanceRecord) (v m : ℚ) (os family : String),
    list ≠ [] →
    (∀ x ∈ list, gcpFilterPred (lowerStr os) family x = true) →
    (∀ x ∈ list, ∃ a, x.vcpu = JVal.num a) →
    (∀ x ∈ list, ∃ b, x.ram = JVal.num b) →
    (∀ x ∈ list, ∃ p, x.pricePerHourUSD = JVal.num p) →
    ∃ b, findBestGcp list v m os family = .ok (some b) ∧ b ∈ list ∧
      (∀ y ∈ list, absQ (toNumQ b.vcpu - v) + absQ (toNumQ b.ram - m) ≤
        absQ (toNumQ y.vcpu - v) + absQ (toNumQ y.ram - m)) ∧
      (∀ y ∈ list, absQ (toNumQ y.vcpu - v) + absQ (toNumQ y.ram - m) =
        absQ (toNumQ b.vcpu - v) + absQ (toNumQ b.ram - m) →
        priceQ b ≤ priceQ y) := by
  intro list v m os family hne hpass hv hr hp
  have hfeq : list.filter (gcpFilterPred (lowerStr os) family) = list :=
    List.filter_eq_self.mpr hpass
  have hscore : ∀ y ∈ list, gcpScore v m y =
      absQ (toNumQ y.vcpu - v) + absQ (toNumQ y.ram - m) := fun y _ => rfl
  obtain ⟨c, hscan, hcmem, hmin, htie⟩ := scanBest_spec (gcpScore v m)
    (fun x => toNumber x.pricePerHourUSD)
    (fun x => questInf x.pricePerHourUSD) priceQ list hne (by
      intro x hx
      obtain ⟨p, hp'⟩ := hp x hx
      constructor
      · show toNumber x.pricePerHourUSD = XNum.fin (priceQ x)
        rw [hp', toNumber_num]
        simp [priceQ, hp', toNumQ_num]
      · show questInf x.pricePerHourUSD = XNum.fin (priceQ x)
        rw [hp', questInf_num]
        simp [priceQ, hp', toNumQ_num])
  have hle : list.isEmpty = false := by simpa [List.isEmpty_iff] using hne
  refine ⟨c, ?_, hcmem, ?_, ?_⟩
  · simp only [findBestGcp, hle, Bool.false_eq_true, if_false, hfeq]
    rw [hscan]
  · intro y hy
    have := hmin y hy
    rwa [hscore c hcmem, hscore y hy] at this
  · intro y hy heq
    exact htie y hy (by rw [hscore y hy, hscore c hcmem]; exact heq)

/-- The minimal-score and price-tie-break property of `findBestAzure` on
lists whose records all pass the strict filter, have no `"Unknown"` OS, and
carry numeric specs and prices (the returned record is the selected one with
its `os` overwritten by the request). -/
theorem azureFindBest_minimal :
    ∀ (list : List InstanceRecord) (v m : ℚ) (os family : String),
    list ≠ [] →
    (∀ x ∈ list, azureP1 (lowerStr os) family x = true) →
    (∀ x ∈ list, x.os ≠ "Unknown") →
    (∀ x ∈ list, ∃ a, x.vcpu = JVal.num a) →
    (∀ x ∈ list, ∃ b, x.ram = JVal.num b) →
    (∀ x ∈ list, ∃ p, x.pricePerHourUSD = JVal.num p) →
    ∃ b, findBestAzure list v m os family = .ok (some { b with os := os }) ∧
      b ∈ list ∧
      (∀ y ∈ list, absQ (toNumQ b.vcpu - v) + absQ (toNumQ b.ram - m) ≤
        absQ (toNumQ y.vcpu - v) + absQ (toNumQ y.ram - m)) ∧
      (∀ y ∈ list, absQ (toNumQ y.vcpu - v) + absQ (toNumQ y.ram - m) =
        absQ (toNumQ b.vcpu - v) + absQ (toNumQ b.ram - m) →
        priceQ b ≤ priceQ y) := by
  intro list v m os family hne hpass hnu hv hr hp
  have hfeq : list.filter (azureP1 (lowerStr os) family) = list :=
    List.filter_eq_self.mpr hpass
  have hpre_snd : (filterIdx (azureP1 (lowerStr os) family) 0 list).map
      (fun e => e.2) = list := by
    rw [filterIdx_map_snd]
    exact hfeq
  have hpre_ne : filterIdx (azureP1 (lowerStr os) family) 0 list ≠ [] := by
    intro hc
    apply hne
    rw [← hpre_snd, hc]
    rfl
  have hstrict := azurePreIdx_strict list (lowerStr os) family hpre_ne
  have hent : azureEntries list (lowerStr os) family =
      (filterIdx (azureP1 (lowerStr os) family) 0 list).map
        (fun p => (p.1, true, p.2)) := by
    unfold azureEntries
    rw [hstrict]
    apply List.map_congr_left
    intro p hp
    have hpl : p.2 ∈ list := hpre_snd ▸ List.mem_map_of_mem _ hp
    obtain ⟨a, ha⟩ := hv p.2 hpl
    obtain ⟨bq, hb⟩ := hr p.2 hpl
    have hfv : jIsFinite p.2.vcpu = true := by rw [ha]; rfl
    have hfr : jIsFinite p.2.ram = true := by rw [hb]; rfl
    simp [hfv, hfr, enrichAzure_of_finite p.2 hfv hfr]
  have hscore : ∀ y ∈ list, azScore v m y =
      absQ (toNumQ y.vcpu - v) + absQ (toNumQ y.ram - m) := by
    intro y hy
    obtain ⟨a, ha⟩ := hv y hy
    obtain ⟨bq, hb⟩ := hr y hy
    rw [azScore_eval v m a bq y ha hb (hnu y hy), ha, hb, toNumQ_num,
      toNumQ_num]
  have hentne : azureEntries list (lowerStr os) family ≠ [] := by
    rw [hent]
    intro hc
    exact hpre_ne (List.map_eq_nil_iff.mp hc)
  have hmem_list : ∀ e ∈ azureEntries list (lowerStr os) family,
      e.2.2 ∈ list := by
    intro e he
    rw [hent] at he
    obtain ⟨p, hp, hpe⟩ := List.mem_map.mp he
    rw [← hpe]
    exact hpre_snd ▸ List.mem_map_of_mem _ hp
  obtain ⟨c, hscan, hcmem, hmin, htie⟩ := scanBest_spec
    (fun e : Nat × Bool × InstanceRecord => azScore v m e.2.2)
    (fun e => azTb e.2.2) (fun e => azTb e.2.2)
    (fun e => priceQ e.2.2) (azureEntries list (lowerStr os) family) hentne
    (by
      intro e he
      obtain ⟨p, hp'⟩ := hp e.2.2 (hmem_list e he)
      constructor
      · show azTb e.2.2 = XNum.fin (priceQ e.2.2)
        rw [azTb, hp', questInf_num]
        simp [priceQ, hp', toNumQ_num]
      · show azTb e.2.2 = XNum.fin (priceQ e.2.2)
        rw [azTb, hp', questInf_num]
        simp [priceQ, hp', toNumQ_num])
  have hscan' : azureScan list v m (lowerStr os) family = some c := hscan
  have hle : list.isEmpty = false := by simpa [List.isEmpty_iff] using hne
  have hprene : (azurePreIdx list (lowerStr os) family).isEmpty = false := by
    rw [hstrict]
    simpa [List.isEmpty_iff] using hpre_ne
  refine ⟨c.2.2, ?_, hmem_list c hcmem, ?_, ?_⟩
  · simp only [findBestAzure, hle, Bool.false_eq_true, if_false, hprene,
      hscan']
  · intro y hy
    obtain ⟨p, hp2, hpe⟩ := List.mem_map.mp (hpre_snd ▸ hy)
    have hey : (p.1, true, p.2) ∈ azureEntries list (lowerStr os) family := by
      rw [hent]
      exact List.mem_map_of_mem _ hp2
    have := hmin (p.1, true, p.2) hey
    rw [show ((p.1, true, p.2) : Nat × Bool × InstanceRecord).2.2 = y from hpe] at this
    rwa [hscore c.2.2 (hmem_list c hcmem), hscore y hy] at this
  · intro y hy heq
    obtain ⟨p, hp2, hpe⟩ := List.mem_map.mp (hpre_snd ▸ hy)
    have hey : (p.1, true, p.2) ∈ azureEntries list (lowerStr os) family := by
      rw [hent]
      exact List.mem_map_of_mem _ hp2
    have := htie (p.1, true, p.2) hey
    rw [show ((p.1, true, p.2) : Nat × Bool × InstanceRecord).2.2 = y from hpe] at this
    exact this (by rw [hscore y hy, hscore c.2.2 (hmem_list c hcmem)]; exact heq)

/-- The Unknown-OS candidate of the C1 counterexample (exact request shape,
cheapest). -/
def cexUnknown : InstanceRecord :=
  mkRow "Standard_D4s_v5" (.num 4) (.num 16) (.num (mkRat 5 100)) "Unknown"
    "general"

/-- The Linux candidate of the C1 counterexample (slightly off on RAM). -/
def cexLinux : InstanceRecord :=
  mkRow "Standard_D4s_v5" (.num 4) (.num (mkRat 65 4)) (.num (mkRat 1 10))
    "Linux" "general"

/-- C1 counterexample: both records pass `findBestAzure`'s strict filter and
have finite specs, yet the matcher returns the record whose
`|Δvcpu| + |Δram|` score (1/4) is NOT minimal — the Unknown-OS record scores
0 but is demoted by the `+0.5` Unknown-OS penalty. -/
theorem c1_azure_unknown_penalty_counterexample :
    (∀ x ∈ [cexUnknown, cexLinux], azureP1 (lowerStr "Linux") "" x = true ∧
      jIsFinite x.vcpu = true ∧ jIsFinite x.ram = true ∧
      jIsFinite x.pricePerHourUSD = true) ∧
    findBestAzure [cexUnknown, cexLinux] 4 16 "Linux" "" =
      .ok (some { cexLinux with os := "Linux" }) ∧
    absQ (toNumQ cexUnknown.vcpu - 4) + absQ (toNumQ cexUnknown.ram - 16) <
      absQ (toNumQ cexLinux.vcpu - 4) + absQ (toNumQ cexLinux.ram - 16) ∧
    priceQ cexUnknown < priceQ cexLinux := by
  with_unfolding_all decide

/-- C1 (amended): for every candidate list in which all records pass the
matcher's eligibility filter, carry numeric (finite) vcpu, ram and
pricePerHourUSD, and — for `findBestAzure` — no record's `os` is
`"Unknown"`, the matcher returns a record whose `|Δvcpu| + |Δram|` score is
minimal over the list, and among minimal-score candidates one with the
lowest price (`findBestAzure` returns it with `os` overwritten by the
request). -/
theorem c1_matchers_minimal_score :
    (∀ (list : List InstanceRecord) (v m : ℚ) (os family : String),
      list ≠ [] →
      (∀ x ∈ list, awsFilterPred (lowerStr os) family x = true) →
      (∀ x ∈ list, ∃ a, x.vcpu = JVal.num a) →
      (∀ x ∈ list, ∃ b, x.ram = JVal.num b) →
      (∀ x ∈ list, ∃ p, x.pricePerHourUSD = JVal.num p) →
      ∃ b, findBestAws list v m os family = .ok (some b) ∧ b ∈ list ∧
        (∀ y ∈ list, absQ (toNumQ b.vcpu - v) + absQ (toNumQ b.ram - m) ≤
          absQ (toNumQ y.vcpu - v) + absQ (toNumQ y.ram - m)) ∧
        (∀ y ∈ list, absQ (toNumQ y.vcpu - v) + absQ (toNumQ y.ram - m) =
          absQ (toNumQ b.vcpu - v) + absQ (toNumQ b.ram - m) →
          priceQ b ≤ priceQ y)) ∧
    (∀ (list : List InstanceRecord) (v m : ℚ) (os family : String),
      list ≠ [] →
      (∀ x ∈ list, azureP1 (lowerStr os) family x = true) →
      (∀ x ∈ list, x.os ≠ "Unknown") →
      (∀ x ∈ list, ∃ a, x.vcpu = JVal.num a) →
      (∀ x ∈ list, ∃ b, x.ram = JVal.num b) →
      (∀ x ∈ list, ∃ p, x.pricePerHourUSD = JVal.num p) →
      ∃ b, findBestAzure list v m os family = .ok (some { b with os := os }) ∧
        b ∈ list ∧
        (∀ y ∈ list, absQ (toNumQ b.vcpu - v) + absQ (toNumQ b.ram - m) ≤
          absQ (toNumQ y.vcpu - v) + absQ (toNumQ y.ram - m)) ∧
        (∀ y ∈ list, absQ (toNumQ y.vcpu - v) + absQ (toNumQ y.ram - m) =
          absQ (toNumQ b.vcpu - v) + absQ (toNumQ b.ram - m) →
          priceQ b ≤ priceQ y)) ∧
    (∀ (list : List InstanceRecord) (v m : ℚ) (os family : String),
      list ≠ [] →
      (∀ x ∈ list, gcpFilterPred (lowerStr os) family x = true) →
      (∀ x ∈ list, ∃ a, x.vcpu = JVal.num a) →
      (∀ x ∈ list, ∃ b, x.ram = JVal.num b) →
      (∀ x ∈ list, ∃ p, x.pricePerHourUSD = JVal.num p) →
      ∃ b, findBestGcp list v m os family = .ok (some b) ∧ b ∈ list ∧
        (∀ y ∈ list, absQ (toNumQ b.vcpu - v) + absQ (toNumQ b.ram - m) ≤
          absQ (toNumQ y.vcpu - v) + absQ (toNumQ y.ram - m)) ∧
        (∀ y ∈ list, absQ (toNumQ y.vcpu - v) + absQ (toNumQ y.ram - m) =
          absQ (toNumQ b.vcpu - v) + absQ (toNumQ b.ram - m) →
          priceQ b ≤ priceQ y)) :=
  ⟨awsFindBest_minimal, azureFindBest_minimal, gcpFindBest_minimal⟩

/-- The AWS record of the C1 witness. -/
def witAws : InstanceRecord := mkRow "m5.large" (.num 2) (.num 8) (.num 1) "Linux" ""

/-- The Azure record of the C1 witness. -/
def witAz : InstanceRecord :=
  mkRow "Standard_D2_v5" (.num 2) (.num 8) (.num 1) "Linux" "general"

/-- The GCP record of the C1 witness. -/
def witGcp : InstanceRecord :=
  mkRow "n2_standard_4" (.num 4) (.num 16) (.num 1) "Linux" "general"

/-- Witness for C1 (amended) at concrete singleton inputs. -/
theorem c1_matchers_minimal_score_witness :
    (([witAws] : List InstanceRecord) ≠ [] ∧
      (∀ x ∈ [witAws], awsFilterPred (lowerStr "Linux") "" x = true) ∧
      ∃ b, findBestAws [witAws] 2 8 "Linux" "" = .ok (some b) ∧ b ∈ [witAws] ∧
        (∀ y ∈ [witAws], absQ (toNumQ b.vcpu - 2) + absQ (toNumQ b.ram - 8) ≤
          absQ (toNumQ y.vcpu - 2) + absQ (toNumQ y.ram - 8)) ∧
        (∀ y ∈ [witAws], absQ (toNumQ y.vcpu - 2) + absQ (toNumQ y.ram - 8) =
          absQ (toNumQ b.vcpu - 2) + absQ (toNumQ b.ram - 8) →
          priceQ b ≤ priceQ y)) ∧
    (∃ b, findBestAzure [witAz] 2 8 "Linux" "" =
      .ok (some { b with os := "Linux" }) ∧ b ∈ [witAz] ∧
      (∀ y ∈ [witAz], absQ (toNumQ b.vcpu - 2) + absQ (toNumQ b.ram - 8) ≤
        absQ (toNumQ y.vcpu - 2) + absQ (toNumQ y.ram - 8)) ∧
      (∀ y ∈ [witAz], absQ (toNumQ y.vcpu - 2) + absQ (toNumQ y.ram - 8) =
        absQ (toNumQ b.vcpu - 2) + absQ (toNumQ b.ram - 8) →
        priceQ b ≤ priceQ y)) ∧
    (∃ b, findBestGcp [witGcp] 4 16 "Linux" "" = .ok (some b) ∧
      b ∈ [witGcp] ∧
      (∀ y ∈ [witGcp], absQ (toNumQ b.vcpu - 4) + absQ (toNumQ b.ram - 16) ≤
        absQ (toNumQ y.vcpu - 4) + absQ (toNumQ y.ram - 16)) ∧
      (∀ y ∈ [witGcp], absQ (toNumQ y.vcpu - 4) + absQ (toNumQ y.ram - 16) =
        absQ (toNumQ b.vcpu - 4) + absQ (toNumQ b.ram - 16) →
        priceQ b ≤ priceQ y)) := by
  refine ⟨⟨by decide, by decide, ?_⟩, ?_, ?_⟩
  · refine c1_matchers_minimal_score.1 [witAws] 2 8 "Linux" "" (by decide)
      (by decide) ?_ ?_ ?_
    · intro x hx
      simp only [List.mem_singleton] at hx
      exact ⟨2, by rw [hx]; rfl⟩
    · intro x hx
      simp only [List.mem_singleton] at hx
      exact ⟨8, by rw [hx]; rfl⟩
    · intro x hx
      simp only [List.mem_singleton] at hx
      exact ⟨1, by rw [hx]; rfl⟩
  · refine c1_matchers_minimal_score.2.1 [witAz] 2 8 "Linux" "" (by decide)
      (by decide) (by decide) ?_ ?_ ?_
    · intro x hx
      simp only [List.mem_singleton] at hx
      exact ⟨2, by rw [hx]; rfl⟩
    · intro x hx
      simp only [List.mem_singleton] at hx
      exact ⟨8, by rw [hx]; rfl⟩
    · intro x hx
      simp only [List.mem_singleton] at hx
      exact ⟨1, by rw [hx]; rfl⟩
  · refine c1_matchers_minimal_score.2.2 [witGcp] 4 16 "Linux" "" (by decide)
      (by decide) ?_ ?_ ?_
    · intro x hx
      simp only [List.mem_singleton] at hx
      exact ⟨4, by rw [hx]; rfl⟩
    · intro x hx
      simp only [List.mem_singleton] at hx
      exact ⟨16, by rw [hx]; rfl⟩
    · intro x hx
      simp only [List.mem_singleton] at hx
      exact ⟨1, by rw [hx]; rfl⟩

/-- When both OS-respecting filters are empty, the relaxation falls through
to the OS-ignoring filter. -/
theorem azurePreIdx_os_fallback (list : List InstanceRecord)
    (wantOS family : String)
    (h1 : filterIdx (azureP1 wantOS family) 0 list = [])
    (h2 : filterIdx (azureP2 wantOS) 0 list = []) :
    azurePreIdx list wantOS family = filterIdx (azureP3 family) 0 list := by
  simp only [azurePreIdx, h1, h2]
  by_cases hf : family = ""
  · simp [hf]
  · simp [hf, h2]

/-- C3: when the strict OS-plus-family filter of `findBestAzure` is
nonempty, the relaxation stops there (the candidate pool is exactly the
strict filter's result), and the selected underlying record satisfies both
the OS constraint and the family constraint; the returned record (the
selected one, possibly enriched, with `os` overwritten by the request) still
satisfies the family constraint. -/
theorem c3_strict_filter_priority (list : List InstanceRecord) (v m : ℚ)
    (os family : String)
    (h1 : filterIdx (azureP1 (lowerStr os) family) 0 list ≠ []) :
    azurePreIdx list (lowerStr os) family =
      filterIdx (azureP1 (lowerStr os) family) 0 list ∧
    ∃ r ∈ list, azureP1 (lowerStr os) family r = true ∧
      findBestAzure list v m os family =
        .ok (some { enrichAzure r with os := os }) ∧
      azureFamilyMatch r family = true ∧
      (normalizeOs r.os = lowerStr os ∨ r.os = "Unknown") ∧
      azureFamilyMatch { enrichAzure r with os := os } family = true := by
  have hstrict := azurePreIdx_strict list (lowerStr os) family h1
  have hlne : list ≠ [] := by
    intro hc
    subst hc
    exact h1 rfl
  have hentne : azureEntries list (lowerStr os) family ≠ [] := by
    unfold azureEntries
    rw [hstrict]
    intro hc
    exact h1 (List.map_eq_nil_iff.mp hc)
  obtain ⟨c, hscan, hcmem⟩ := scanBest_mem
    (fun e : Nat × Bool × InstanceRecord => azScore v m e.2.2)
    (fun e => azTb e.2.2) (fun e => azTb e.2.2) _ hentne
  have hcmem' : c ∈ (filterIdx (azureP1 (lowerStr os) family) 0 list).map
      (fun p => (p.1, jIsFinite p.2.vcpu && jIsFinite p.2.ram,
        enrichAzure p.2)) := by
    have h := hcmem
    unfold azureEntries at h
    rwa [hstrict] at h
  obtain ⟨p, hp, hpc⟩ := List.mem_map.mp hcmem'
  obtain ⟨i, r⟩ := p
  obtain ⟨j, hij, hget, hP1⟩ := mem_filterIdx _ 0 list i r hp
  have hrl : r ∈ list := List.get?_mem hget
  have hP1' := hP1
  simp only [azureP1, Bool.and_eq_true, Bool.or_eq_true, beq_iff_eq] at hP1'
  obtain ⟨⟨hod, hfam⟩, hos⟩ := hP1'
  have hle : list.isEmpty = false := by simpa [List.isEmpty_iff] using hlne
  have hprene : (azurePreIdx list (lowerStr os) family).isEmpty = false := by
    rw [hstrict]
    simpa [List.isEmpty_iff] using h1
  have hscan' : azureScan list v m (lowerStr os) family = some c := hscan
  refine ⟨hstrict, r, hrl, hP1, ?_, hfam, hos, ?_⟩
  · simp only [findBestAzure, hle, Bool.false_eq_true, if_false, hprene,
      hscan']
    rw [← hpc]
  · have hcat : ({ enrichAzure r with os := os } :
        InstanceRecord).category = r.category := by
      rw [show ({ enrichAzure r with os := os } :
        InstanceRecord).category = (enrichAzure r).category from rfl]
      exact enrichAzure_category r
    have hinst : ({ enrichAzure r with os := os } :
        InstanceRecord).inst = r.inst := by
      rw [show ({ enrichAzure r with os := os } :
        InstanceRecord).inst = (enrichAzure r).inst from rfl]
      exact enrichAzure_inst r
    rw [azureFamilyMatch_congr _ r family hcat hinst]
    exact hfam

/-- The Azure record of the C3 witness. -/
def witC3 : InstanceRecord :=
  mkRow "Standard_D2_v5" (.num 2) (.num 8) (.num 1) "Linux" "general"

/-- Witness for C3 at a concrete input. -/
theorem c3_strict_filter_priority_witness :
    filterIdx (azureP1 (lowerStr "Linux") "general") 0 [witC3] ≠ [] ∧
    (azurePreIdx [witC3] (lowerStr "Linux") "general" =
      filterIdx (azureP1 (lowerStr "Linux") "general") 0 [witC3] ∧
    ∃ r ∈ [witC3], azureP1 (lowerStr "Linux") "general" r = true ∧
      findBestAzure [witC3] 2 8 "Linux" "general" =
        .ok (some { enrichAzure r with os := "Linux" }) ∧
      azureFamilyMatch r "general" = true ∧
      (normalizeOs r.os = lowerStr "Linux" ∨ r.os = "Unknown") ∧
      azureFamilyMatch { enrichAzure r with os := "Linux" } "general" = true) :=
  ⟨by decide, c3_strict_filter_priority [witC3] 2 8 "Linux" "general" (by decide)⟩

/-- The Azure record of the C4 counterexample. -/
def cexC4 : InstanceRecord :=
  mkRow "Standard_D2s_v5" (.num 2) (.num 8) (.num 1) "Linux" "general"

/-- C4 counterexample: requesting `os="Windows"` against a Linux-only,
no-Unknown record set does NOT fail in `findBestAzure` — the OS-ignoring
third filter returns the Linux record relabelled as Windows. -/
theorem c4_azure_fallback_returns_match :
    findBestAzure [cexC4] 2 8 "Windows" "" =
      .ok (some { cexC4 with os := "Windows" }) ∧
    cexC4.os = "Linux" ∧ cexC4.os ≠ "Unknown" := by
  with_unfolding_all decide

/-- C4 (amended): on a list whose records' OS all normalize to Linux with no
`"Unknown"`, requesting `"Windows"` makes `findBestAws` throw the
descriptive error naming the requested OS, while `findBestAzure` only fails
when no record passes the eligibility-and-family filters — otherwise its
OS-ignoring fallback returns a record (with `os` relabelled to the
request). -/
theorem c4_windows_request_no_match :
    (∀ (list : List InstanceRecord) (v m : ℚ) (family : String),
      list ≠ [] →
      (∀ r ∈ list, strStartsWith (lowerStr r.os) "win" = false) →
      findBestAws list v m "Windows" family =
        .error ("No AWS entries for OS=Windows" ++
          (if family == "" then "" else " family=" ++ family))) ∧
    (∀ (list : List InstanceRecord) (v m : ℚ) (family : String),
      (∀ r ∈ list, strStartsWith (lowerStr r.os) "win" = false ∧
        r.os ≠ "Unknown") →
      (∃ r ∈ list, azureP3 family r = true) →
      ∃ b, findBestAzure list v m "Windows" family = .ok (some b)) := by
  constructor
  · intro list v m family hne h
    have hw : lowerStr "Windows" = "windows" := by decide
    have hfilter : list.filter (awsFilterPred (lowerStr "Windows") family) = [] := by
      rw [List.filter_eq_nil_iff]
      intro x hx
      have hlin : normalizeOs x.os = "linux" := by
        simp [normalizeOs, h x hx]
      simp [awsFilterPred, hw, hlin]
    have hle : list.isEmpty = false := by simpa [List.isEmpty_iff] using hne
    simp only [findBestAws, hle, Bool.false_eq_true, if_false, hfilter,
      List.isEmpty_nil, if_true]
    rw [show ("No AWS entries for OS=" ++
      (if ("Windows" : String) == "" then "any" else "Windows")) =
      "No AWS entries for OS=Windows" from by decide]
  · intro list v m family h hex
    obtain ⟨r0, hr0, hp3⟩ := hex
    have hw : lowerStr "Windows" = "windows" := by decide
    have h1 : filterIdx (azureP1 (lowerStr "Windows") family) 0 list = [] := by
      apply filterIdx_eq_nil
      intro x hx
      have hlin : normalizeOs x.os = "linux" := by
        simp [normalizeOs, (h x hx).1]
      simp [azureP1, hw, hlin, (h x hx).2]
    have h2 : filterIdx (azureP2 (lowerStr "Windows")) 0 list = [] := by
      apply filterIdx_eq_nil
      intro x hx
      have hlin : normalizeOs x.os = "linux" := by
        simp [normalizeOs, (h x hx).1]
      simp [azureP2, hw, hlin, (h x hx).2]
    have hpre := azurePreIdx_os_fallback list (lowerStr "Windows") family h1 h2
    have hp3ne : filterIdx (azureP3 family) 0 list ≠ [] := by
      obtain ⟨i, hi⟩ := filterIdx_mem_of (azureP3 family) 0 list r0 hr0 hp3
      intro hc
      rw [hc] at hi
      simp at hi
    have hlne : list ≠ [] := by
      intro hc
      subst hc
      simp at hr0
    have hentne : azureEntries list (lowerStr "Windows") family ≠ [] := by
      unfold azureEntries
      rw [hpre]
      intro hc
      exact hp3ne (List.map_eq_nil_iff.mp hc)
    obtain ⟨c, hscan, _⟩ := scanBest_mem
      (fun e : Nat × Bool × InstanceRecord => azScore v m e.2.2)
      (fun e => azTb e.2.2) (fun e => azTb e.2.2) _ hentne
    have hscan' : azureScan list v m (lowerStr "Windows") family = some c := hscan
    have hle : list.isEmpty = false := by simpa [List.isEmpty_iff] using hlne
    have hprene : (azurePreIdx list (lowerStr "Windows") family).isEmpty =
        false := by
      rw [hpre]
      simpa [List.isEmpty_iff] using hp3ne
    refine ⟨{ c.2.2 with os := "Windows" }, ?_⟩
    simp only [findBestAzure, hle, Bool.false_eq_true, if_false, hprene,
      hscan']

/-- Witness for C4 (amended) at concrete inputs: an all-Linux list for the
AWS half and an all-Linux eligible list for the Azure half. -/
theorem c4_windows_request_no_match_witness :
    (([witAws] : List InstanceRecord) ≠ [] ∧
      (∀ r ∈ [witAws], strStartsWith (lowerStr r.os) "win" = false) ∧
      findBestAws [witAws] 2 8 "Windows" "" =
        .error ("No AWS entries for OS=Windows" ++
          (if ("" : String) == "" then "" else " family=" ++ ""))) ∧
    ((∀ r ∈ [witC3], strStartsWith (lowerStr r.os) "win" = false ∧
        r.os ≠ "Unknown") ∧
      (∃ r ∈ [witC3], azureP3 "" r = true) ∧
      ∃ b, findBestAzure [witC3] 2 8 "Windows" "" = .ok (some b)) := by
  refine ⟨⟨by decide, by decide, ?_⟩, by decide, ⟨witC3, by decide, by decide⟩, ?_⟩
  · exact c4_windows_request_no_match.1 [witAws] 2 8 "" (by decide) (by decide)
  · exact c4_windows_request_no_match.2 [witC3] 2 8 "" (by decide)
      ⟨witC3, by decide, by decide⟩

/-- A record with `null` specs (as the Azure fetcher stores for unknown
vCPU/RAM). -/
def cexNullSpec : InstanceRecord :=
  mkRow "Standard_X1" .null .null (.num 1) "Linux" ""

/-- A record with complete but distant specs. -/
def cexFullSpec : InstanceRecord :=
  mkRow "Standard_D2_v5" (.num 10) (.num 100) (.num 1) "Linux" ""

/-- C5: evaluation at the failing input.  Because the coercing global
`isFinite(null)` is `true`, a record whose `vcpu`/`ram` are `null` is
treated as having finite specs: the enrichment map returns it unchanged
(name-based inference never runs), its score is
`|0 − wantVcpu| + |0 − wantRam| = 20` rather than the documented `9999`
penalty, and it beats — and is returned over — a complete-spec record whose
honest score is `90`. -/
theorem c5_null_specs_scored_as_zero :
    jIsFinite JVal.null = true ∧
    enrichAzure cexNullSpec = cexNullSpec ∧
    azScore 4 16 cexNullSpec = 20 ∧
    azScore 4 16 cexNullSpec ≠ 9999 ∧
    azScore 4 16 cexFullSpec = 90 ∧
    findBestAzure [cexNullSpec, cexFullSpec] 4 16 "Linux" "" =
      .ok (some { cexNullSpec with os := "Linux" }) := by
  with_unfolding_all decide

/-- The record of the C6 counterexample: stored OS spelled `"LINUX"`, so the
final `best.os = os` assignment visibly rewrites it. -/
def cexMut : InstanceRecord :=
  mkRow "Standard_D2_v5" (.num 2) (.num 8) (.num 1) "LINUX" ""

/-- C6 counterexample: calling `findBestAzure` changes the input list — the
selected record (returned un-copied because its specs are finite) has its
`os` field overwritten with the requested OS. -/
theorem c6_input_record_mutated :
    findBestAzureFinalList [cexMut] 2 8 "Linux" "" ≠ [cexMut] ∧
    findBestAzureFinalList [cexMut] 2 8 "Linux" "" =
      [{ cexMut with os := "Linux" }] := by
  with_unfolding_all decide

/-- C6 (amended): a `findBestAzure` call leaves the input list unchanged
except possibly for one record: when the selected candidate was passed to
the scoring loop un-copied (finite `vcpu` and `ram`), the record stored at
its index has exactly its `os` field overwritten with the requested OS, and
that record is the one returned. -/
theorem c6_azure_mutates_only_selected_os :
    ∀ (list : List InstanceRecord) (v m : ℚ) (os family : String),
    findBestAzureFinalList list v m os family = list ∨
    ∃ i r, list.get? i = some r ∧
      findBestAzureFinalList list v m os family =
        list.set i { r with os := os } ∧
      findBestAzure list v m os family = .ok (some { r with os := os }) := by
  intro list v m os family
  by_cases hle : list.isEmpty = true
  · left
    simp [findBestAzureFinalList, hle]
  · have hle' : list.isEmpty = false := by simpa using hle
    by_cases hpe : (azurePreIdx list (lowerStr os) family).isEmpty = true
    · left
      simp [findBestAzureFinalList, hle', hpe]
    · have hpe' : (azurePreIdx list (lowerStr os) family).isEmpty = false := by
        simpa using hpe
      cases hscan : azureScan list v m (lowerStr os) family with
      | none =>
        left
        simp [findBestAzureFinalList, hle', hpe', hscan]
      | some e =>
        obtain ⟨i, flag, b⟩ := e
        cases flag with
        | false =>
          left
          simp [findBestAzureFinalList, hle', hpe', hscan]
        | true =>
          right
          have hmem : (i, true, b) ∈ azureEntries list (lowerStr os) family :=
            scanBest_some_mem _ _ _ _ _ hscan
          obtain ⟨p, hp, hpe2⟩ := List.mem_map.mp hmem
          obtain ⟨ip, rp⟩ := p
          have hi : ip = i := congrArg (fun t => t.1) hpe2
          have hflag : (jIsFinite rp.vcpu && jIsFinite rp.ram) = true :=
            congrArg (fun t => t.2.1) hpe2
          have hbr : enrichAzure rp = b := congrArg (fun t => t.2.2) hpe2
          have hflag2 : jIsFinite rp.vcpu = true ∧ jIsFinite rp.ram = true := by
            simpa using hflag
          have hfin : enrichAzure rp = rp :=
            enrichAzure_of_finite rp hflag2.1 hflag2.2
          have hb : b = rp := by rw [← hbr, hfin]
          obtain ⟨ppred, hpred⟩ := azurePreIdx_eq_filterIdx list (lowerStr os)
            family
          rw [hpred] at hp
          obtain ⟨j, hij, hget, _⟩ := mem_filterIdx _ 0 list ip rp hp
      
          refine ⟨i, rp, ?_, ?_, ?_⟩
          · rw [← hi, hij]
            simpa using hget
          · simp only [findBestAzureFinalList, hle', Bool.false_eq_true,
              if_false, hpe', hscan]
            rw [hb]
          · simp only [findBestAzure, hle', Bool.false_eq_true, if_false,
              hpe', hscan]
            rw [hb]
